import Mathlib

/-!
Verification of the tracing and background-task core of `fastapi-radar`.

Shallow embedding conventions:
* Python `datetime` values are modelled as `Int` timestamps measured in
  milliseconds, so a `timedelta` expressed via
  `.total_seconds() * 1000` is plain integer subtraction.
* Python `dict` (insertion-ordered, unique keys) is modelled as an
  association list `List (String × α)`; assigning to an existing key
  replaces the value in place, assigning a fresh key appends, and
  `d.update(other)` is the corresponding sequence of assignments.
* `None` is `Option.none`; fallible operations are total functions that
  mirror the source's explicit `if ... return` guards.
-/

namespace Radar

/-- `d.get(k)` / `k in d` lookup on an insertion-ordered Python dict. -/
def dictLookup : List (String × α) → String → Option α
  | [], _ => none
  | p :: rest, k => if p.1 = k then some p.2 else dictLookup rest k

/-- `d[k] = v` on an insertion-ordered Python dict: replace in place when
the key exists, append otherwise. -/
def dictInsert : List (String × α) → String → α → List (String × α)
  | [], k, v => [(k, v)]
  | p :: rest, k, v => if p.1 = k then (k, v) :: rest else p :: dictInsert rest k v

/-- `old.update(new)`: assign every pair of `new` into `old`, in order. -/
def dictUpdate (old : List (String × α)) : List (String × α) → List (String × α)
  | [] => old
  | q :: rest => dictUpdate (dictInsert old q.1 q.2) rest

/-- Keys of a dict, in insertion order. -/
def dictKeys (l : List (String × α)) : List String :=
  l.map (·.1)

theorem dictLookup_insert (l : List (String × α)) (a k : String) (v : α) :
    dictLookup (dictInsert l a v) k =
      if a = k then some v else dictLookup l k := by
  induction l with
  | nil => simp [dictInsert, dictLookup]
  | cons p rest ih =>
    by_cases hp : p.1 = a
    · by_cases hk : a = k
      · simp [dictInsert, dictLookup, hp, hk]
      · have hpk : ¬ p.1 = k := fun h => hk (hp ▸ h)
        simp [dictInsert, dictLookup, hp, hk, hpk]
    · by_cases hpk : p.1 = k
      · have hk : ¬ a = k := fun h => hp (h ▸ hpk)
        have hka : ¬ k = a := fun h => hk h.symm
        simp [dictInsert, dictLookup, hp, hpk, hk, hka]
      · simp [dictInsert, dictLookup, hp, hpk, ih]

theorem dictLookup_eq_none_iff (l : List (String × α)) (k : String) :
    dictLookup l k = none ↔ k ∉ dictKeys l := by
  induction l with
  | nil => simp [dictLookup, dictKeys]
  | cons p rest ih =>
    by_cases hp : p.1 = k
    · simp [dictLookup, dictKeys, hp]
    · simp only [dictLookup, if_neg hp, dictKeys, List.map_cons, List.mem_cons]
      rw [ih]
      unfold dictKeys
      constructor
      · intro h hmem
        rcases hmem with h1 | h2
        · exact hp h1.symm
        · exact h h2
      · intro h h2
        exact h (Or.inr h2)

theorem dictKeys_insert (l : List (String × α)) (k : String) (v : α) :
    dictKeys (dictInsert l k v) =
      if k ∈ dictKeys l then dictKeys l else dictKeys l ++ [k] := by
  induction l with
  | nil => simp [dictInsert, dictKeys]
  | cons p rest ih =>
    by_cases hp : p.1 = k
    · simp [dictInsert, dictKeys, hp]
    · have hne : ¬ k = p.1 := fun h => hp h.symm
      by_cases hmem : k ∈ dictKeys rest
      · simp only [dictInsert, if_neg hp, dictKeys, List.map_cons]
        unfold dictKeys at ih hmem
        simp [hmem, hne, ih]
      · simp only [dictInsert, if_neg hp, dictKeys, List.map_cons]
        unfold dictKeys at ih hmem
        simp [hmem, hne, ih]

theorem dictKeys_nodup_insert (l : List (String × α)) (k : String) (v : α)
    (h : (dictKeys l).Nodup) : (dictKeys (dictInsert l k v)).Nodup := by
  rw [dictKeys_insert]
  by_cases hk : k ∈ dictKeys l
  · simpa [hk]
  · simp only [hk, if_false]
    rw [List.nodup_append]
    exact ⟨h, List.nodup_singleton k, by
      intro a ha hb
      simp only [List.mem_singleton] at hb
      subst hb
      exact hk ha⟩

theorem dictLookup_update (old new : List (String × α)) (k : String) :
    dictLookup (dictUpdate old new) k =
      ((dictLookup new.reverse k).or (dictLookup old k)) := by
  induction new generalizing old with
  | nil => simp [dictUpdate, dictLookup]
  | cons q rest ih =>
    have happ : ∀ (a b : List (String × α)),
        dictLookup (a ++ b) k = (dictLookup a k).or (dictLookup b k) := by
      intro a b
      induction a with
      | nil => simp [dictLookup]
      | cons p prest iha =>
        by_cases hp : p.1 = k
        · simp [dictLookup, hp]
        · simp [dictLookup, hp, iha]
    simp only [dictUpdate, List.reverse_cons]
    rw [ih, happ]
    rw [dictLookup_insert]
    by_cases hq : q.1 = k
    · simp [dictLookup, hq, Option.or_assoc]
    · simp [dictLookup, hq, Option.or_assoc]

/-- On a dict with no duplicate keys, looking up in the reversed list is
the same as looking up in the list. -/
theorem dictLookup_reverse_eq (l : List (String × α)) (k : String)
    (h : (dictKeys l).Nodup) : dictLookup l.reverse k = dictLookup l k := by
  induction l with
  | nil => rfl
  | cons p rest ih =>
    have happ : ∀ (a b : List (String × α)),
        dictLookup (a ++ b) k = (dictLookup a k).or (dictLookup b k) := by
      intro a b
      induction a with
      | nil => simp [dictLookup]
      | cons p2 prest iha =>
        by_cases hp : p2.1 = k
        · simp [dictLookup, hp]
        · simp [dictLookup, hp, iha]
    have hcons : (p.1 :: dictKeys rest).Nodup := by
      simpa [dictKeys] using h
    have hnd : (dictKeys rest).Nodup := (List.nodup_cons.mp hcons).2
    have hnotin : p.1 ∉ dictKeys rest := (List.nodup_cons.mp hcons).1
    simp only [List.reverse_cons]
    rw [happ, ih hnd]
    by_cases hp : p.1 = k
    · have : dictLookup rest k = none := by
        rw [dictLookup_eq_none_iff]
        exact fun hmem => hnotin (hp ▸ hmem)
      simp [dictLookup, hp, this]
    · simp [dictLookup, hp]

theorem dictLookup_mem_keys {l : List (String × α)} {k : String} {v : α}
    (h : dictLookup l k = some v) : k ∈ dictKeys l := by
  by_contra hmem
  rw [← dictLookup_eq_none_iff l k] at hmem
  rw [hmem] at h
  exact Option.noConfusion h

/-! ## Span engine (`TraceContext`, tracing.py)

Span tag values are scalars in the spec's data model; they are modelled
as `String`. Timestamps taken by `datetime.now` are supplied as explicit
`now` arguments; generated span ids (`_generate_span_id`, a random
16-hex token) are supplied as explicit `span_id` arguments. -/

/-- One span's data: the `span_data` dict built by
`TraceContext.create_span` and mutated by `finish_span` / `add_span_log`.
A log entry is modelled as `(level, message)`. -/
structure SpanData where
  span_id : String
  trace_id : String
  parent_span_id : Option String
  operation_name : String
  service_name : String
  span_kind : String
  start_time : Int
  end_time : Option Int := none
  duration_ms : Option Int := none
  tags : List (String × String)
  logs : List (String × String) := []
  status : String
deriving Repr, DecidableEq

/-- State of one `TraceContext`. -/
structure TraceContext where
  trace_id : String
  service_name : String
  root_span_id : Option String := none
  current_span_id : Option String := none
  spans : List (String × SpanData) := []
  start_time : Int
deriving Repr, DecidableEq

/-- `TraceContext.__init__`. -/
def TraceContext.init (trace_id service_name : String) (now : Int) : TraceContext :=
  { trace_id := trace_id, service_name := service_name, start_time := now }

/-- Python `a or b` on optional strings: `None` and `""` are falsy. -/
def pyOrStr (a b : Option String) : Option String :=
  match a with
  | some s => if s = "" then b else some s
  | none => b

/-- `TraceContext.create_span`. -/
def TraceContext.create_span (ctx : TraceContext) (span_id operation_name : String)
    (parent_span_id : Option String) (span_kind : String)
    (tags : List (String × String)) (now : Int) : TraceContext :=
  let span_data : SpanData := {
    span_id := span_id
    trace_id := ctx.trace_id
    parent_span_id := pyOrStr parent_span_id ctx.current_span_id
    operation_name := operation_name
    service_name := ctx.service_name
    span_kind := span_kind
    start_time := now
    tags := tags
    logs := []
    status := "ok" }
  { ctx with
    spans := dictInsert ctx.spans span_id span_data
    root_span_id := if ctx.root_span_id = none then some span_id else ctx.root_span_id }

/-- The mutation `finish_span` applies to a known span's data: set the
end time, derive `duration_ms`, set the status and `update` the tags
(`if tags:` skips a `None` or empty dict). -/
def finishedSpanData (sd : SpanData) (status : String)
    (tags : Option (List (String × String))) (now : Int) : SpanData :=
  { sd with
    end_time := some now
    duration_ms := some (now - sd.start_time)
    status := status
    tags := match tags with
      | some t => if t.isEmpty then sd.tags else dictUpdate sd.tags t
      | none => sd.tags }

/-- `TraceContext.finish_span`: no-op when the span id is unknown;
otherwise apply `finishedSpanData` to the stored span. -/
def TraceContext.finish_span (ctx : TraceContext) (span_id status : String)
    (tags : Option (List (String × String))) (now : Int) : TraceContext :=
  match dictLookup ctx.spans span_id with
  | none => ctx
  | some sd =>
      { ctx with spans := dictInsert ctx.spans span_id (finishedSpanData sd status tags now) }

/-- `TraceContext.add_span_log`: no-op when the span id is unknown. -/
def TraceContext.add_span_log (ctx : TraceContext) (span_id message level : String) :
    TraceContext :=
  match dictLookup ctx.spans span_id with
  | none => ctx
  | some sd =>
      { ctx with
        spans := dictInsert ctx.spans span_id
          { sd with logs := sd.logs ++ [(level, message)] } }

/-- `TraceContext.set_current_span`. -/
def TraceContext.set_current_span (ctx : TraceContext) (span_id : String) : TraceContext :=
  { ctx with current_span_id := some span_id }

/-- Result of `TraceContext.get_trace_summary` (the non-empty case). -/
structure TraceSummary where
  trace_id : String
  service_name : String
  operation_name : String
  start_time : Int
  end_time : Int
  duration_ms : Int
  span_count : Nat
  status : String
deriving Repr, DecidableEq

/-- The `all_times` list collected by `get_trace_summary`: every span's
start time followed by its end time when set (a `datetime` is always
truthy in Python, so the start time is always collected). -/
def TraceContext.allTimes (ctx : TraceContext) : List Int :=
  ctx.spans.flatMap (fun p => p.2.start_time :: p.2.end_time.toList)

/-- `TraceContext.get_trace_summary`: `{}` (here `none`) when no spans
exist, otherwise the aggregate over all spans. -/
def TraceContext.get_trace_summary (ctx : TraceContext) (now : Int) : Option TraceSummary :=
  if ctx.spans.isEmpty then none
  else
    let all_times := ctx.allTimes
    let error_count := (ctx.spans.filter (fun p => p.2.status = "error")).length
    let start_time := all_times.min?.getD ctx.start_time
    let end_time := all_times.max?.getD now
    some {
      trace_id := ctx.trace_id
      service_name := ctx.service_name
      operation_name :=
        match ctx.root_span_id with
        | none => "unknown"
        | some r => ((dictLookup ctx.spans r).map (·.operation_name)).getD "unknown"
      start_time := start_time
      end_time := end_time
      duration_ms := end_time - start_time
      span_count := ctx.spans.length
      status := if error_count > 0 then "error" else "ok" }

/-- One call against a `TraceContext`, for stating properties of call
sequences. -/
inductive TraceOp where
  | create (span_id operation_name : String) (parent_span_id : Option String)
      (span_kind : String) (tags : List (String × String)) (now : Int)
  | finish (span_id status : String) (tags : Option (List (String × String))) (now : Int)
  | log (span_id message level : String)
  | setCurrent (span_id : String)
deriving Repr, DecidableEq

def runOp (ctx : TraceContext) : TraceOp → TraceContext
  | .create span_id op parent kind tags now => ctx.create_span span_id op parent kind tags now
  | .finish span_id status tags now => ctx.finish_span span_id status tags now
  | .log span_id message level => ctx.add_span_log span_id message level
  | .setCurrent span_id => ctx.set_current_span span_id

def runOps (ctx : TraceContext) (ops : List TraceOp) : TraceContext :=
  ops.foldl runOp ctx

/-- Span ids passed to `create_span` in a call sequence. -/
def createdIds : List TraceOp → List String
  | [] => []
  | .create span_id _ _ _ _ _ :: rest => span_id :: createdIds rest
  | _ :: rest => createdIds rest

theorem dictKeys_spans_create (ctx : TraceContext) (span_id op : String)
    (parent : Option String) (kind : String) (tags : List (String × String)) (now : Int) :
    (dictKeys (ctx.create_span span_id op parent kind tags now).spans).toFinset
      = (dictKeys ctx.spans).toFinset ∪ {span_id} := by
  unfold TraceContext.create_span
  simp only
  rw [dictKeys_insert]
  by_cases hmem : span_id ∈ dictKeys ctx.spans
  · rw [if_pos hmem]
    ext a
    simp only [Finset.mem_union, Finset.mem_singleton, List.mem_toFinset]
    constructor
    · exact fun h => Or.inl h
    · rintro (h | rfl)
      · exact h
      · exact hmem
  · rw [if_neg hmem, List.toFinset_append]
    rfl

theorem dictKeys_spans_finish (ctx : TraceContext) (span_id status : String)
    (tags : Option (List (String × String))) (now : Int) :
    dictKeys (ctx.finish_span span_id status tags now).spans = dictKeys ctx.spans := by
  unfold TraceContext.finish_span
  cases h : dictLookup ctx.spans span_id with
  | none => rfl
  | some sd =>
    simp only
    rw [dictKeys_insert, if_pos (dictLookup_mem_keys h)]

theorem dictKeys_spans_log (ctx : TraceContext) (span_id message level : String) :
    dictKeys (ctx.add_span_log span_id message level).spans = dictKeys ctx.spans := by
  unfold TraceContext.add_span_log
  cases h : dictLookup ctx.spans span_id with
  | none => rfl
  | some sd =>
    simp only
    rw [dictKeys_insert, if_pos (dictLookup_mem_keys h)]

/-- Running a call sequence makes the span dict's key set the initial key
set plus the ids passed to `create_span`. -/
theorem dictKeys_spans_runOps (ops : List TraceOp) : ∀ ctx : TraceContext,
    (dictKeys (runOps ctx ops).spans).toFinset
      = (dictKeys ctx.spans).toFinset ∪ (createdIds ops).toFinset := by
  induction ops with
  | nil => intro ctx; simp [runOps, createdIds]
  | cons op rest ih =>
    intro ctx
    have hstep : runOps ctx (op :: rest) = runOps (runOp ctx op) rest := rfl
    rw [hstep, ih]
    cases op with
    | create span_id opn parent kind tags now =>
      rw [show runOp ctx (.create span_id opn parent kind tags now)
            = ctx.create_span span_id opn parent kind tags now from rfl]
      rw [dictKeys_spans_create]
      show _ = _ ∪ (span_id :: createdIds rest).toFinset
      rw [List.toFinset_cons]
      ext a
      simp only [Finset.mem_union, Finset.mem_singleton, Finset.mem_insert]
      tauto
    | finish span_id status tags now =>
      rw [show runOp ctx (.finish span_id status tags now)
            = ctx.finish_span span_id status tags now from rfl]
      rw [dictKeys_spans_finish]
      rfl
    | log span_id message level =>
      rw [show runOp ctx (.log span_id message level)
            = ctx.add_span_log span_id message level from rfl]
      rw [dictKeys_spans_log]
      rfl
    | setCurrent span_id => rfl

/-- Running a call sequence preserves distinctness of the span dict's
keys. -/
theorem dictKeys_spans_nodup_runOps (ops : List TraceOp) : ∀ ctx : TraceContext,
    (dictKeys ctx.spans).Nodup → (dictKeys (runOps ctx ops).spans).Nodup := by
  induction ops with
  | nil => intro ctx h; exact h
  | cons op rest ih =>
    intro ctx h
    have hstep : runOps ctx (op :: rest) = runOps (runOp ctx op) rest := rfl
    rw [hstep]
    apply ih
    cases op with
    | create span_id opn parent kind tags now =>
      exact dictKeys_nodup_insert _ _ _ h
    | finish span_id status tags now =>
      rw [show runOp ctx (.finish span_id status tags now)
            = ctx.finish_span span_id status tags now from rfl]
      rw [dictKeys_spans_finish]; exact h
    | log span_id message level =>
      rw [show runOp ctx (.log span_id message level)
            = ctx.add_span_log span_id message level from rfl]
      rw [dictKeys_spans_log]; exact h
    | setCurrent span_id => exact h

/-- C1: for every sequence of `create_span`/`finish_span` (and other)
calls in one trace context, `get_trace_summary` has `span_count` equal to
the number of distinct span ids created and `status = "error"` iff at
least one span's status is `"error"`; with no spans created it returns
the empty summary. -/
theorem trace_summary_counts_spans_and_errors
    (tid svc : String) (t0 now : Int) (ops : List TraceOp) :
    (createdIds ops = [] →
        (runOps (TraceContext.init tid svc t0) ops).get_trace_summary now = none)
    ∧ (createdIds ops ≠ [] →
        ∃ s, (runOps (TraceContext.init tid svc t0) ops).get_trace_summary now = some s
          ∧ s.span_count = (createdIds ops).dedup.length
          ∧ (s.status = "error" ↔
              ∃ pr ∈ (runOps (TraceContext.init tid svc t0) ops).spans,
                pr.2.status = "error")) := by
  have hkeys := dictKeys_spans_runOps ops (TraceContext.init tid svc t0)
  simp only [show dictKeys (TraceContext.init tid svc t0).spans = ([] : List String) from rfl,
    List.toFinset_nil, Finset.empty_union] at hkeys
  have hnd := dictKeys_spans_nodup_runOps ops (TraceContext.init tid svc t0)
    (by simp [TraceContext.init, dictKeys])
  constructor
  · intro hempty
    have hfin : (dictKeys (runOps (TraceContext.init tid svc t0) ops).spans).toFinset = ∅ := by
      rw [hkeys, hempty]; simp
    have hk : dictKeys (runOps (TraceContext.init tid svc t0) ops).spans = [] :=
      (List.toFinset_eq_empty_iff _).mp hfin
    have hsp : (runOps (TraceContext.init tid svc t0) ops).spans = [] := by
      cases hsp : (runOps (TraceContext.init tid svc t0) ops).spans with
      | nil => rfl
      | cons a l =>
        rw [hsp] at hk
        exact absurd hk (by simp [dictKeys])
    simp [TraceContext.get_trace_summary, hsp]
  · intro hne
    have hspne : (runOps (TraceContext.init tid svc t0) ops).spans ≠ [] := by
      intro hsp
      have hk : dictKeys (runOps (TraceContext.init tid svc t0) ops).spans = [] := by
        rw [hsp]; rfl
      rw [hk] at hkeys
      simp only [List.toFinset_nil] at hkeys
      exact hne ((List.toFinset_eq_empty_iff _).mp hkeys.symm)
    have hIsEmpty : (runOps (TraceContext.init tid svc t0) ops).spans.isEmpty = false := by
      cases hsp : (runOps (TraceContext.init tid svc t0) ops).spans with
      | nil => exact absurd hsp hspne
      | cons a l => rfl
    refine ⟨_, by simp only [TraceContext.get_trace_summary, hIsEmpty]; rfl, ?_, ?_⟩
    · show (runOps (TraceContext.init tid svc t0) ops).spans.length
        = (createdIds ops).dedup.length
      have h1 : (runOps (TraceContext.init tid svc t0) ops).spans.length
          = (dictKeys (runOps (TraceContext.init tid svc t0) ops).spans).length := by
        simp [dictKeys]
      rw [h1, ← List.toFinset_card_of_nodup hnd, hkeys, List.card_toFinset]
    · show (if 0 < ((runOps (TraceContext.init tid svc t0) ops).spans.filter
            (fun p => p.2.status = "error")).length then "error" else "ok") = "error"
        ↔ ∃ pr ∈ (runOps (TraceContext.init tid svc t0) ops).spans, pr.2.status = "error"
      by_cases herr : ∃ pr ∈ (runOps (TraceContext.init tid svc t0) ops).spans,
          pr.2.status = "error"
      · obtain ⟨pr, hm, hst⟩ := herr
        have hpos : 0 < ((runOps (TraceContext.init tid svc t0) ops).spans.filter
            (fun p => p.2.status = "error")).length :=
          List.length_pos_iff_exists_mem.mpr
            ⟨pr, List.mem_filter.mpr ⟨hm, by simp [hst]⟩⟩
        rw [if_pos hpos]
        exact ⟨fun _ => ⟨pr, hm, hst⟩, fun _ => rfl⟩
      · have hzero : ¬ 0 < ((runOps (TraceContext.init tid svc t0) ops).spans.filter
            (fun p => p.2.status = "error")).length := by
          intro hpos
          obtain ⟨pr, hpr⟩ := List.length_pos_iff_exists_mem.mp hpos
          have hm := List.mem_filter.mp hpr
          exact herr ⟨pr, hm.1, by simpa using hm.2⟩
        rw [if_neg hzero]
        constructor
        · intro h
          exact absurd h (by decide)
        · intro h
          exact absurd h herr

/-- A concrete call sequence: two spans created, one finished with an
error status. -/
def opsC1 : List TraceOp :=
  [.create "a" "root" none "server" [] 0,
   .finish "a" "error" none 5,
   .create "b" "child" none "server" [] 3]

theorem trace_summary_counts_witness :
    createdIds opsC1 ≠ [] ∧
      ∃ s, (runOps (TraceContext.init "t" "svc" 0) opsC1).get_trace_summary 10 = some s
        ∧ s.span_count = (createdIds opsC1).dedup.length
        ∧ (s.status = "error" ↔
            ∃ pr ∈ (runOps (TraceContext.init "t" "svc" 0) opsC1).spans,
              pr.2.status = "error") :=
  ⟨by decide, (trace_summary_counts_spans_and_errors "t" "svc" 0 10 opsC1).2 (by decide)⟩

theorem int_min?_eq_some_iff {l : List Int} {a : Int} :
    l.min? = some a ↔ a ∈ l ∧ ∀ b ∈ l, a ≤ b :=
  haveI : Std.Antisymm (fun (x1 x2 : Int) => x1 ≤ x2) := ⟨fun h h2 => le_antisymm h h2⟩
  List.min?_eq_some_iff (fun _ => le_refl _) (fun _ _ => min_choice _ _)
    (fun _ _ _ => le_min_iff)

theorem int_max?_eq_some_iff {l : List Int} {a : Int} :
    l.max? = some a ↔ a ∈ l ∧ ∀ b ∈ l, b ≤ a :=
  haveI : Std.Antisymm (fun (x1 x2 : Int) => x1 ≤ x2) := ⟨fun h h2 => le_antisymm h h2⟩
  List.max?_eq_some_iff (fun _ => le_refl _) (fun _ _ => max_choice _ _)
    (fun _ _ _ => max_le_iff)

theorem mem_allTimes_iff (ctx : TraceContext) (x : Int) :
    x ∈ ctx.allTimes ↔
      ∃ pr ∈ ctx.spans, x = pr.2.start_time ∨ pr.2.end_time = some x := by
  unfold TraceContext.allTimes
  rw [List.mem_flatMap]
  constructor
  · rintro ⟨pr, hpr, hx⟩
    rcases List.mem_cons.mp hx with h | h
    · exact ⟨pr, hpr, Or.inl h⟩
    · exact ⟨pr, hpr, Or.inr (Option.mem_toList.mp h)⟩
  · rintro ⟨pr, hpr, h | h⟩
    · exact ⟨pr, hpr, List.mem_cons.mpr (Or.inl h)⟩
    · exact ⟨pr, hpr, List.mem_cons.mpr (Or.inr (Option.mem_toList.mpr h))⟩

/-- C7 (amended): for a trace context with at least one span in which
every finished span ends no earlier than it starts, `get_trace_summary`
reports `start_time` equal to the minimum span start time and
`duration_ms = end_time - start_time`; when additionally every span is
finished, `end_time` equals the maximum span end time. (In general the
source computes both bounds over the combined collection of start and
end times, so an unfinished span starting after every recorded end time
makes `end_time` exceed the maximum span end time.) -/
theorem trace_summary_min_start_max_end (ctx : TraceContext) (now : Int)
    (hne : ctx.spans ≠ [])
    (hends : ∀ pr ∈ ctx.spans, ∀ e, pr.2.end_time = some e → pr.2.start_time ≤ e) :
    ∃ s, ctx.get_trace_summary now = some s
      ∧ (ctx.spans.map (fun p => p.2.start_time)).min? = some s.start_time
      ∧ s.duration_ms = s.end_time - s.start_time
      ∧ ((∀ pr ∈ ctx.spans, pr.2.end_time ≠ none) →
          (ctx.spans.filterMap (fun p => p.2.end_time)).max? = some s.end_time) := by
  have hIsEmpty : ctx.spans.isEmpty = false := by
    cases hsp : ctx.spans with
    | nil => exact absurd hsp hne
    | cons p l => rfl
  have hat_ne : ctx.allTimes ≠ [] := by
    cases hsp : ctx.spans with
    | nil => exact absurd hsp hne
    | cons p l =>
      intro h
      have hmem : p.2.start_time ∈ ctx.allTimes :=
        (mem_allTimes_iff ctx _).mpr ⟨p, by rw [hsp]; exact List.mem_cons_self p l, Or.inl rfl⟩
      rw [h] at hmem
      exact absurd hmem (List.not_mem_nil _)
  obtain ⟨m, hm⟩ : ∃ m, ctx.allTimes.min? = some m := by
    cases hmc : ctx.allTimes.min? with
    | none => exact absurd (List.min?_eq_none_iff.mp hmc) hat_ne
    | some m => exact ⟨m, rfl⟩
  obtain ⟨M, hM⟩ : ∃ M, ctx.allTimes.max? = some M := by
    cases hmc : ctx.allTimes.max? with
    | none => exact absurd (List.max?_eq_none_iff.mp hmc) hat_ne
    | some M => exact ⟨M, rfl⟩
  obtain ⟨hmmem, hmlb⟩ := int_min?_eq_some_iff.mp hm
  obtain ⟨hMmem, hMub⟩ := int_max?_eq_some_iff.mp hM
  refine ⟨_, by simp only [TraceContext.get_trace_summary, hIsEmpty]; rfl, ?_, rfl, ?_⟩
  · show (ctx.spans.map (fun p => p.2.start_time)).min? = some (ctx.allTimes.min?.getD ctx.start_time)
    rw [hm]
    show (ctx.spans.map (fun p => p.2.start_time)).min? = some m
    rw [int_min?_eq_some_iff]
    constructor
    · rcases (mem_allTimes_iff ctx m).mp hmmem with ⟨pr, hpr, h | h⟩
      · exact List.mem_map.mpr ⟨pr, hpr, h.symm⟩
      · have h1 : pr.2.start_time ≤ m := hends pr hpr m h
        have h2 : m ≤ pr.2.start_time :=
          hmlb _ ((mem_allTimes_iff ctx _).mpr ⟨pr, hpr, Or.inl rfl⟩)
        exact List.mem_map.mpr ⟨pr, hpr, le_antisymm h1 h2⟩
    · intro b hb
      rcases List.mem_map.mp hb with ⟨pr, hpr, rfl⟩
      exact hmlb _ ((mem_allTimes_iff ctx _).mpr ⟨pr, hpr, Or.inl rfl⟩)
  · intro hfin
    show (ctx.spans.filterMap (fun p => p.2.end_time)).max?
      = some (ctx.allTimes.max?.getD now)
    rw [hM]
    show (ctx.spans.filterMap (fun p => p.2.end_time)).max? = some M
    rw [int_max?_eq_some_iff]
    constructor
    · rcases (mem_allTimes_iff ctx M).mp hMmem with ⟨pr, hpr, h | h⟩
      · obtain ⟨e, he⟩ : ∃ e, pr.2.end_time = some e := by
          cases hec : pr.2.end_time with
          | none => exact absurd hec (hfin pr hpr)
          | some e => exact ⟨e, rfl⟩
        have h1 : pr.2.start_time ≤ e := hends pr hpr e he
        have h2 : e ≤ M := hMub _ ((mem_allTimes_iff ctx _).mpr ⟨pr, hpr, Or.inr he⟩)
        have hEq : e = M := le_antisymm h2 (h ▸ h1)
        exact List.mem_filterMap.mpr ⟨pr, hpr, by rw [he, hEq]⟩
      · exact List.mem_filterMap.mpr ⟨pr, hpr, h⟩
    · intro b hb
      rcases List.mem_filterMap.mp hb with ⟨pr, hpr, he⟩
      exact hMub _ ((mem_allTimes_iff ctx _).mpr ⟨pr, hpr, Or.inr he⟩)

/-- A concrete call sequence reaching a context with one finished and one
unfinished span. -/
def opsC7 : List TraceOp :=
  [.create "a" "root" none "server" [] 0,
   .finish "a" "ok" none 5,
   .create "b" "child" none "server" [] 10]

theorem trace_summary_min_start_max_end_witness :
    (runOps (TraceContext.init "t" "svc" 0) [.create "a" "root" none "server" [] 0,
        .finish "a" "ok" none 5]).spans ≠ []
    ∧ ∃ s, (runOps (TraceContext.init "t" "svc" 0) [.create "a" "root" none "server" [] 0,
          .finish "a" "ok" none 5]).get_trace_summary 6 = some s
        ∧ ((runOps (TraceContext.init "t" "svc" 0) [.create "a" "root" none "server" [] 0,
            .finish "a" "ok" none 5]).spans.map (fun p => p.2.start_time)).min?
            = some s.start_time
        ∧ s.duration_ms = s.end_time - s.start_time
        ∧ ((∀ pr ∈ (runOps (TraceContext.init "t" "svc" 0)
              [.create "a" "root" none "server" [] 0,
               .finish "a" "ok" none 5]).spans, pr.2.end_time ≠ none) →
            ((runOps (TraceContext.init "t" "svc" 0) [.create "a" "root" none "server" [] 0,
              .finish "a" "ok" none 5]).spans.filterMap (fun p => p.2.end_time)).max?
              = some s.end_time) :=
  ⟨by decide,
   trace_summary_min_start_max_end _ 6 (by decide)
     (by decide)⟩

/-- C7 counterexample: with span `a` finished at time 5 and span `b`
created unfinished at time 10, the summary's `end_time` is 10 while the
maximum span end time is 5, so the summary's `end_time` is not the
maximum `end_time` over the trace's spans. -/
theorem trace_summary_end_time_counterexample :
    (((runOps (TraceContext.init "t" "svc" 0) opsC7).get_trace_summary 11).map
        (fun s => s.end_time)) = some 10
    ∧ ((runOps (TraceContext.init "t" "svc" 0) opsC7).spans.filterMap
        (fun p => p.2.end_time)).max? = some 5
    ∧ (10 : Int) ≠ 5 := by
  decide

/-- C8: `finish_span` with an unknown span id changes no state (and,
being a total function, never throws); on a known span it sets the end
time, derives `duration_ms` from start and end, sets the given status,
and merges the supplied tags key-by-key into the span's existing tags
(a key keeps its previous value unless the supplied tags bind it). -/
theorem finish_span_unknown_noop_and_merges_tags (ctx : TraceContext)
    (span_id status : String) (tags : Option (List (String × String))) (now : Int) :
    (dictLookup ctx.spans span_id = none →
        ctx.finish_span span_id status tags now = ctx)
    ∧ (∀ sd, dictLookup ctx.spans span_id = some sd →
        (dictKeys (tags.getD [])).Nodup →
        ∃ sd2, dictLookup (ctx.finish_span span_id status tags now).spans span_id = some sd2
          ∧ sd2.end_time = some now
          ∧ sd2.duration_ms = some (now - sd.start_time)
          ∧ sd2.status = status
          ∧ ∀ k, dictLookup sd2.tags k
              = ((dictLookup (tags.getD []) k).or (dictLookup sd.tags k))) := by
  constructor
  · intro h
    simp [TraceContext.finish_span, h]
  · intro sd hsd hndt
    refine ⟨finishedSpanData sd status tags now, ?_, rfl, rfl, rfl, ?_⟩
    · have hstep : ctx.finish_span span_id status tags now
          = { ctx with spans := dictInsert ctx.spans span_id (finishedSpanData sd status tags now) } := by
        simp [TraceContext.finish_span, hsd]
      rw [hstep]
      show dictLookup (dictInsert ctx.spans span_id _) span_id = _
      rw [dictLookup_insert]
      simp
    · intro k
      show dictLookup
        (match tags with
          | some t => if t.isEmpty then sd.tags else dictUpdate sd.tags t
          | none => sd.tags) k = _
      cases tags with
      | none => simp [dictLookup]
      | some t =>
        cases t with
        | nil => simp [dictLookup]
        | cons q rest =>
          show dictLookup (dictUpdate sd.tags (q :: rest)) k = _
          rw [dictLookup_update]
          rw [dictLookup_reverse_eq _ _ (by simpa using hndt)]
          rfl

/-- The span data produced by `create_span "a"` at time 0 with initial
tags, before finishing. -/
def sdW : SpanData :=
  { span_id := "a", trace_id := "t", parent_span_id := none,
    operation_name := "root", service_name := "svc", span_kind := "server",
    start_time := 0, end_time := none, duration_ms := none,
    tags := [("x", "1"), ("y", "0")], logs := [], status := "ok" }

/-- The context holding exactly span `a` as just created. -/
def ctxW : TraceContext :=
  runOps (TraceContext.init "t" "svc" 0)
    [.create "a" "root" none "server" [("x", "1"), ("y", "0")] 0]

theorem finish_span_merges_tags_witness :
    dictLookup ctxW.spans "a" = some sdW
    ∧ (dictKeys ((some [("x", "2")] : Option (List (String × String))).getD [])).Nodup
    ∧ ∃ sd2, dictLookup (ctxW.finish_span "a" "error" (some [("x", "2")]) 9).spans "a"
          = some sd2
        ∧ sd2.end_time = some 9
        ∧ sd2.duration_ms = some (9 - sdW.start_time)
        ∧ sd2.status = "error"
        ∧ ∀ k, dictLookup sd2.tags k
            = ((dictLookup ((some [("x", "2")] : Option (List (String × String))).getD []) k).or
                (dictLookup sdW.tags k)) :=
  ⟨by decide, by decide,
   (finish_span_unknown_noop_and_merges_tags ctxW "a" "error" (some [("x", "2")]) 9).2
     sdW (by decide) (by decide)⟩

/-! ## Trace reconstructor (`TracingManager.get_waterfall_data`)

The SQL query is embedded over the persisted row sets: `radar_spans`
rows carrying the columns the query reads, and `radar_span_relations`
rows. The `LEFT JOIN ... ON s.span_id = r.child_span_id` keeps one
output row per matching relation row (or one row with `COALESCE` depth 0
when none matches), `offset_ms` subtracts the window minimum of
`start_time` over the trace's spans, and `ORDER BY offset_ms, depth`
sorts the result. -/

/-- The columns of a persisted `radar_spans` row read by the waterfall
query. -/
structure SpanRow where
  span_id : String
  trace_id : String
  parent_span_id : Option String
  start_time : Int
deriving Repr, DecidableEq

/-- A persisted `radar_span_relations` row. -/
structure RelRow where
  trace_id : String
  parent_span_id : String
  child_span_id : String
  depth : Nat
deriving Repr, DecidableEq

/-- One row of the waterfall result set. -/
structure WaterfallRow where
  span_id : String
  parent_span_id : Option String
  start_time : Int
  depth : Nat
  offset_ms : Int
deriving Repr, DecidableEq

/-- `ORDER BY offset_ms, depth` as a boolean total preorder. -/
def rowLe (a b : WaterfallRow) : Bool :=
  decide (a.offset_ms < b.offset_ms ∨ (a.offset_ms = b.offset_ms ∧ a.depth ≤ b.depth))

/-- `TracingManager.get_waterfall_data`: filter the trace's spans, left
join the relation rows on `child_span_id`, compute depth (`COALESCE` 0)
and `offset_ms`, and sort by `(offset_ms, depth)`. -/
def get_waterfall_data (spans : List SpanRow) (rels : List RelRow)
    (trace_id : String) : List WaterfallRow :=
  let filtered := spans.filter (fun s => s.trace_id = trace_id)
  let minStart := (filtered.map (fun s => s.start_time)).min?.getD 0
  let base := filtered.flatMap (fun s =>
    match rels.filter (fun r => r.child_span_id = s.span_id) with
    | [] => [⟨s.span_id, s.parent_span_id, s.start_time, 0, s.start_time - minStart⟩]
    | ms => ms.map (fun r =>
        ⟨s.span_id, s.parent_span_id, s.start_time, r.depth, s.start_time - minStart⟩))
  base.mergeSort rowLe

theorem find?_eq_head_of_filter_eq_cons {p : α → Bool} {l tl : List α} {r : α}
    (h : l.filter p = r :: tl) : l.find? p = some r := by
  induction l with
  | nil => simp at h
  | cons a rest ih =>
    by_cases ha : p a
    · rw [List.filter_cons_of_pos ha] at h
      rw [List.find?_cons_of_pos _ ha]
      injection h with h1 h2
      rw [h1]
    · rw [List.filter_cons_of_neg (by simpa using ha)] at h
      rw [List.find?_cons_of_neg _ (by simpa using ha)]
      exact ih h

/-- The three-span example from the spec: root `a` at 0ms, child `b` of
`a` at 10ms, child `c` of `b` at 10ms, with precomputed depths 1 and 2. -/
def wfSpans : List SpanRow :=
  [⟨"a", "t", none, 0⟩, ⟨"b", "t", some "a", 10⟩, ⟨"c", "t", some "b", 10⟩]

def wfRels : List RelRow :=
  [⟨"t", "a", "b", 1⟩, ⟨"t", "b", "c", 2⟩]

/-- C3: every waterfall row's `offset_ms` is its span's start time minus
the minimum start time over the trace's spans and its `depth` comes from
the span's relation row (0 without one), the rows are ordered ascending
by `(offset_ms, depth)`, and the spec's three-span example comes out in
the order `[A, B, C]`. -/
theorem waterfall_offsets_depths_order
    (spans : List SpanRow) (rels : List RelRow) (trace_id : String)
    (huniq : ∀ c, (rels.filter (fun r => r.child_span_id = c)).length ≤ 1) :
    (∀ row ∈ get_waterfall_data spans rels trace_id,
        row.offset_ms = row.start_time
            - ((spans.filter (fun s => s.trace_id = trace_id)).map
                (fun s => s.start_time)).min?.getD 0
          ∧ row.depth
            = (((rels.find? (fun r => r.child_span_id = row.span_id)).map
                (fun r => r.depth)).getD 0))
    ∧ (get_waterfall_data spans rels trace_id).Pairwise (fun a b => rowLe a b = true)
    ∧ (get_waterfall_data wfSpans wfRels "t").map (fun r => r.span_id)
        = ["a", "b", "c"] := by
  refine ⟨?_, ?_, ?_⟩
  · intro row hrow
    have hbase : row ∈ (spans.filter (fun s => s.trace_id = trace_id)).flatMap (fun s =>
        match rels.filter (fun r => r.child_span_id = s.span_id) with
        | [] => [⟨s.span_id, s.parent_span_id, s.start_time, 0, s.start_time
            - ((spans.filter (fun s => s.trace_id = trace_id)).map
                (fun s => s.start_time)).min?.getD 0⟩]
        | ms => ms.map (fun r =>
            ⟨s.span_id, s.parent_span_id, s.start_time, r.depth, s.start_time
              - ((spans.filter (fun s => s.trace_id = trace_id)).map
                  (fun s => s.start_time)).min?.getD 0⟩)) :=
      (List.mergeSort_perm _ rowLe).mem_iff.mp hrow
    rcases List.mem_flatMap.mp hbase with ⟨s, hs, hrow2⟩
    cases hfil : rels.filter (fun r => r.child_span_id = s.span_id) with
    | nil =>
      rw [hfil] at hrow2
      simp only [List.mem_singleton] at hrow2
      subst hrow2
      constructor
      · rfl
      · have hfind : rels.find? (fun r => r.child_span_id = s.span_id) = none := by
          rw [List.find?_eq_none]
          intro r hr
          have := List.filter_eq_nil_iff.mp hfil r hr
          simpa using this
        simp [hfind]
    | cons r tl =>
      have hlen : (r :: tl).length ≤ 1 := hfil ▸ huniq s.span_id
      have htl : tl = [] := by
        apply List.length_eq_zero.mp
        have : tl.length + 1 ≤ 1 := by simpa using hlen
        omega
      subst htl
      rw [hfil] at hrow2
      simp only [List.map_cons, List.map_nil, List.mem_singleton] at hrow2
      subst hrow2
      constructor
      · rfl
      · have hfind : rels.find? (fun r2 => r2.child_span_id = s.span_id) = some r :=
          find?_eq_head_of_filter_eq_cons hfil
        simp [hfind]
  · have htrans : ∀ a b c : WaterfallRow,
        rowLe a b = true → rowLe b c = true → rowLe a c = true := by
      intro a b c hab hbc
      simp only [rowLe, decide_eq_true_eq] at *
      omega
    have htotal : ∀ a b : WaterfallRow, (rowLe a b || rowLe b a) = true := by
      intro a b
      simp only [rowLe, Bool.or_eq_true, decide_eq_true_eq]
      omega
    exact List.sorted_mergeSort htrans htotal _
  · simp [get_waterfall_data, wfSpans, wfRels, List.mergeSort, rowLe]

/-- In the example relation set, every span id is the child of at most
one relation row. -/
theorem wfRels_unique_child (c : String) :
    (wfRels.filter (fun r => r.child_span_id = c)).length ≤ 1 := by
  by_cases h1 : ("b" : String) = c
  · subst h1; decide
  · by_cases h2 : ("c" : String) = c
    · subst h2; decide
    · have hnil : wfRels.filter (fun r => r.child_span_id = c) = [] := by
        rw [List.filter_eq_nil_iff]
        intro r hr
        simp only [wfRels, List.mem_cons, List.not_mem_nil, or_false,
          List.mem_singleton] at hr
        rcases hr with rfl | rfl
        · simpa using h1
        · simpa using h2
      rw [hnil]; decide

theorem waterfall_offsets_depths_order_witness :
    (∀ c, ((wfRels.filter (fun r => r.child_span_id = c)).length ≤ 1))
    ∧ ((∀ row ∈ get_waterfall_data wfSpans wfRels "t",
        row.offset_ms = row.start_time
            - ((wfSpans.filter (fun s => s.trace_id = "t")).map
                (fun s => s.start_time)).min?.getD 0
          ∧ row.depth
            = (((wfRels.find? (fun r => r.child_span_id = row.span_id)).map
                (fun r => r.depth)).getD 0))
      ∧ (get_waterfall_data wfSpans wfRels "t").Pairwise (fun a b => rowLe a b = true)
      ∧ (get_waterfall_data wfSpans wfRels "t").map (fun r => r.span_id)
          = ["a", "b", "c"]) :=
  ⟨wfRels_unique_child,
   waterfall_offsets_depths_order wfSpans wfRels "t" wfRels_unique_child⟩

/-! ## Span relations (`TracingManager._save_span_relations`)

`calculate_depth` only needs each span's id and `parent_span_id`, so
spans are presented as `(span_id, parent_span_id)` pairs in creation
order. The source's recursion has no explicit bound; it terminates
because the parent graph produced by span creation is acyclic (every
span's parent is created before it). The embedding makes the recursion
depth explicit through a `fuel` argument, and `save_span_relations`
passes `spans.length` fuel, which the theorems below show never runs out
under that creation-order hypothesis. -/

/-- The recursive helper of `_save_span_relations`: starting from
`span_id` at `depth`, emit one `(parent, child, depth+1)` triple per
direct child and recurse into the child's subtree, in span insertion
order. Returns nothing when `span_id` has no entry (the `if not span`
guard). -/
def calculate_depth (spans : List (String × Option String)) :
    Nat → String → Nat → List (String × String × Nat)
  | 0, _, _ => []
  | fuel + 1, span_id, depth =>
    if (dictLookup spans span_id).isNone then []
    else
      (spans.filter (fun p => p.2 = some span_id)).flatMap
        (fun c => (span_id, c.1, depth + 1) :: calculate_depth spans fuel c.1 (depth + 1))

/-- `TracingManager._save_span_relations`: no rows without a root span,
otherwise one `SpanRelation` row per triple emitted by
`calculate_depth` from the root. -/
def save_span_relations (trace_id : String) (root_span_id : Option String)
    (spans : List (String × Option String)) : List RelRow :=
  match root_span_id with
  | none => []
  | some root =>
      (calculate_depth spans spans.length root 0).map
        (fun e => ⟨trace_id, e.1, e.2.1, e.2.2⟩)

/-- The parent pointer of a span, read from the span dict. -/
def parentOf (spans : List (String × Option String)) (c : String) : Option String :=
  (dictLookup spans c).bind (fun x => x)

/-- `PathFrom spans a c ℓ`: following parent pointers upward from `c`
exactly `ℓ` times reaches `a`; i.e. `c` lies at distance `ℓ` below `a`. -/
def PathFrom (spans : List (String × Option String)) (a : String) : String → Nat → Prop
  | c, 0 => c = a
  | c, ℓ + 1 => ∃ p, parentOf spans c = some p ∧ PathFrom spans a p ℓ

/-- Creation-order discipline: every span's parent pointer references a
strictly earlier span. (Span creation defaults the parent to an already
existing span, so contexts built by the span engine satisfy this.) -/
def parentEarlierB (spans : List (String × Option String)) : Bool :=
  spans.all (fun pr =>
    match pr.2 with
    | none => true
    | some p => (dictKeys spans).indexOf p < (dictKeys spans).indexOf pr.1)

/-- A three-span chain `a ← b ← c` in creation order. -/
def ceSpans : List (String × Option String) :=
  [("a", none), ("b", some "a"), ("c", some "b")]

/-- C4 counterexample: for the chain root `a`, child `b`, grandchild
`c`, the code writes exactly the two direct-edge rows `(a,b,1)` and
`(b,c,2)`; although `c` is a descendant of `a` (an (ancestor,
descendant) pair of the root's subtree, shown by the parent chain), no
row with parent `a` and child `c` is written. -/
theorem save_span_relations_counterexample :
    save_span_relations "t" (some "a") ceSpans
      = [⟨"t", "a", "b", 1⟩, ⟨"t", "b", "c", 2⟩]
    ∧ parentOf ceSpans "c" = some "b"
    ∧ parentOf ceSpans "b" = some "a"
    ∧ ∀ row ∈ save_span_relations "t" (some "a") ceSpans,
        ¬(row.parent_span_id = "a" ∧ row.child_span_id = "c") := by
  decide

theorem dictLookup_mem {l : List (String × α)} {k : String} {v : α}
    (h : dictLookup l k = some v) : (k, v) ∈ l := by
  induction l with
  | nil => simp [dictLookup] at h
  | cons p rest ih =>
    by_cases hp : p.1 = k
    · simp only [dictLookup, if_pos hp] at h
      injection h with h1
      refine List.mem_cons.mpr (Or.inl ?_)
      rw [← hp, ← h1]
    · simp only [dictLookup, if_neg hp] at h
      exact List.mem_cons.mpr (Or.inr (ih h))

theorem dictLookup_of_mem_nodup {l : List (String × α)} {pr : String × α}
    (hnd : (dictKeys l).Nodup) (hm : pr ∈ l) : dictLookup l pr.1 = some pr.2 := by
  induction l with
  | nil => simp at hm
  | cons p rest ih =>
    have hcons : (p.1 :: dictKeys rest).Nodup := by simpa [dictKeys] using hnd
    rcases List.mem_cons.mp hm with rfl | hm2
    · simp [dictLookup]
    · by_cases hp : p.1 = pr.1
      · exfalso
        apply (List.nodup_cons.mp hcons).1
        rw [hp]
        exact List.mem_map.mpr ⟨pr, hm2, rfl⟩
      · simp only [dictLookup, if_neg hp]
        exact ih (List.nodup_cons.mp hcons).2 hm2

theorem parentEarlier_lt {spans : List (String × Option String)}
    (hpe : parentEarlierB spans = true) {pr : String × Option String} (hm : pr ∈ spans)
    {p : String} (hp : pr.2 = some p) :
    (dictKeys spans).indexOf p < (dictKeys spans).indexOf pr.1 := by
  have h := List.all_eq_true.mp hpe pr hm
  rw [hp] at h
  simpa using h

theorem parentOf_lookup {spans : List (String × Option String)} {c p : String}
    (h : parentOf spans c = some p) : dictLookup spans c = some (some p) := by
  unfold parentOf at h
  cases hl : dictLookup spans c with
  | none => rw [hl] at h; simp at h
  | some v =>
    rw [hl] at h
    cases v with
    | none => simp at h
    | some q =>
      have : q = p := by simpa using h
      rw [this]

theorem parentOf_lt {spans : List (String × Option String)}
    (hpe : parentEarlierB spans = true) {c p : String}
    (h : parentOf spans c = some p) :
    (dictKeys spans).indexOf p < (dictKeys spans).indexOf c := by
  exact parentEarlier_lt hpe (dictLookup_mem (parentOf_lookup h)) rfl

theorem parentOf_mem_keys {spans : List (String × Option String)} {c p : String}
    (h : parentOf spans c = some p) : c ∈ dictKeys spans :=
  dictLookup_mem_keys (parentOf_lookup h)

theorem pathFrom_lt {spans : List (String × Option String)}
    (hpe : parentEarlierB spans = true) :
    ∀ ℓ c a, PathFrom spans a c ℓ → 1 ≤ ℓ →
      (dictKeys spans).indexOf a < (dictKeys spans).indexOf c := by
  intro ℓ
  induction ℓ with
  | zero => intro c a _ h1; omega
  | succ n ih =>
    intro c a h _
    obtain ⟨p, hp, hpath⟩ := h
    by_cases hn : 1 ≤ n
    · exact lt_trans (ih p a hpath hn) (parentOf_lt hpe hp)
    · have hn0 : n = 0 := by omega
      subst hn0
      have hpa : p = a := hpath
      subst hpa
      exact parentOf_lt hpe hp

theorem pathFrom_le_index {spans : List (String × Option String)}
    (hpe : parentEarlierB spans = true) :
    ∀ ℓ c a, PathFrom spans a c ℓ → ℓ ≤ (dictKeys spans).indexOf c := by
  intro ℓ
  induction ℓ with
  | zero => intro c a _; omega
  | succ n ih =>
    intro c a h
    obtain ⟨p, hp, hpath⟩ := h
    have h1 := ih p a hpath
    have h2 := parentOf_lt hpe hp
    omega

theorem pathFrom_extend {spans : List (String × Option String)} :
    ∀ ℓ a c b, PathFrom spans a c ℓ →
      parentOf spans a = some b → PathFrom spans b c (ℓ + 1) := by
  intro ℓ
  induction ℓ with
  | zero =>
    intro a c b h hb
    have hca : c = a := h
    subst hca
    exact ⟨b, hb, rfl⟩
  | succ n ih =>
    intro a c b h hb
    obtain ⟨p, hp, hpath⟩ := h
    exact ⟨p, hp, ih a p b hpath hb⟩

theorem pathFrom_first_step {spans : List (String × Option String)} :
    ∀ ℓ a c, PathFrom spans a c (ℓ + 1) →
      ∃ b, parentOf spans b = some a ∧ PathFrom spans b c ℓ := by
  intro ℓ
  induction ℓ with
  | zero =>
    intro a c h
    obtain ⟨p, hp, hpath⟩ := h
    have hpa : p = a := hpath
    subst hpa
    exact ⟨c, hp, rfl⟩
  | succ n ih =>
    intro a c h
    obtain ⟨p, hp, hpath⟩ := h
    obtain ⟨b, hb, hbpath⟩ := ih a p hpath
    exact ⟨b, hb, ⟨p, hp, hbpath⟩⟩

theorem pathFrom_sub {spans : List (String × Option String)} :
    ∀ ℓ1 ℓ2 a b c, ℓ1 ≤ ℓ2 → PathFrom spans a c ℓ1 → PathFrom spans b c ℓ2 →
      PathFrom spans b a (ℓ2 - ℓ1) := by
  intro ℓ1
  induction ℓ1 with
  | zero =>
    intro ℓ2 a b c _ h1 h2
    have hca : c = a := h1
    subst hca
    simpa using h2
  | succ n ih =>
    intro ℓ2 a b c hle h1 h2
    obtain ⟨p, hp, h1p⟩ := h1
    cases ℓ2 with
    | zero => omega
    | succ m =>
      obtain ⟨q, hq, h2q⟩ := h2
      have hqp : q = p := by
        rw [hp] at hq
        injection hq with h
        exact h.symm
      subst hqp
      have hres := ih m a b q (by omega) h1p h2q
      simpa [Nat.succ_sub_succ] using hres

/-- Every triple emitted by `calculate_depth` is a direct parent-child
edge whose depth is the child's distance below the starting span. -/
theorem calculate_depth_sound {spans : List (String × Option String)}
    (hnd : (dictKeys spans).Nodup) :
    ∀ fuel sid d0 p c d, (p, c, d) ∈ calculate_depth spans fuel sid d0 →
      parentOf spans c = some p ∧ ∃ ℓ, 1 ≤ ℓ ∧ d = d0 + ℓ ∧ PathFrom spans sid c ℓ := by
  intro fuel
  induction fuel with
  | zero => intro sid d0 p c d h; simp [calculate_depth] at h
  | succ n ih =>
    intro sid d0 p c d h
    unfold calculate_depth at h
    by_cases hg : (dictLookup spans sid).isNone
    · rw [if_pos hg] at h; simp at h
    · rw [if_neg hg] at h
      rcases List.mem_flatMap.mp h with ⟨ch, hch, hmem⟩
      have hchm := List.mem_filter.mp hch
      have hch2 : ch.2 = some sid := by simpa using hchm.2
      have hparent : parentOf spans ch.1 = some sid := by
        unfold parentOf
        rw [dictLookup_of_mem_nodup hnd hchm.1, hch2]
        rfl
      rcases List.mem_cons.mp hmem with heq | htail
      · have h1 : p = sid ∧ c = ch.1 ∧ d = d0 + 1 := by
          simpa [Prod.ext_iff] using heq
        obtain ⟨rfl, rfl, rfl⟩ := h1
        exact ⟨hparent, 1, le_refl 1, rfl, ⟨p, hparent, rfl⟩⟩
      · obtain ⟨hpc, ℓ, hℓ1, hd, hpath⟩ := ih ch.1 (d0 + 1) p c d htail
        refine ⟨hpc, ℓ + 1, by omega, by omega, ?_⟩
        exact pathFrom_extend ℓ ch.1 c sid hpath hparent

/-- Conversely, every direct parent-child edge reachable from the
starting span is emitted, given enough fuel. -/
theorem calculate_depth_complete {spans : List (String × Option String)}
    (hpe : parentEarlierB spans = true) :
    ∀ ℓ fuel sid d0 c p, 1 ≤ ℓ → ℓ ≤ fuel →
      parentOf spans c = some p → PathFrom spans sid c ℓ →
      (p, c, d0 + ℓ) ∈ calculate_depth spans fuel sid d0 := by
  intro ℓ
  induction ℓ with
  | zero => intro fuel sid d0 c p h1; omega
  | succ n ih =>
    intro fuel sid d0 c p _ hfuel hpar hpath
    cases fuel with
    | zero => omega
    | succ m =>
      obtain ⟨b, hb, hbpath⟩ := pathFrom_first_step n sid c hpath
      have hsidmem : sid ∈ dictKeys spans := by
        have hlt := parentOf_lt hpe hb
        have hbmem : b ∈ dictKeys spans := parentOf_mem_keys hb
        have hblen : (dictKeys spans).indexOf b < (dictKeys spans).length :=
          List.indexOf_lt_length.mpr hbmem
        exact List.indexOf_lt_length.mp (by omega)
      have hguard : ¬ (dictLookup spans sid).isNone = true := by
        cases hl : dictLookup spans sid with
        | some v => simp
        | none =>
          exact absurd ((dictLookup_eq_none_iff spans sid).mp hl) (by simpa using hsidmem)
      have hbentry : (b, some sid) ∈ spans := dictLookup_mem (parentOf_lookup hb)
      unfold calculate_depth
      rw [if_neg hguard]
      apply List.mem_flatMap.mpr
      refine ⟨(b, some sid), List.mem_filter.mpr ⟨hbentry, by simp⟩, ?_⟩
      by_cases hn : 1 ≤ n
      · apply List.mem_cons.mpr
        right
        have hres := ih m b (d0 + 1) c p hn (by omega) hpar hbpath
        have harith : d0 + (n + 1) = (d0 + 1) + n := by omega
        rw [harith]
        exact hres
      · have hn0 : n = 0 := by omega
        subst hn0
        have hcb : c = b := hbpath
        subst hcb
        have hps : p = sid := Option.some.inj (hpar.symm.trans hb)
        subst hps
        exact List.mem_cons.mpr (Or.inl rfl)

theorem children_paths_disjoint_aux {spans : List (String × Option String)}
    (hpe : parentEarlierB spans = true) {sid x y c : String} {ℓ1 ℓ2 : Nat}
    (hx : parentOf spans x = some sid) (hy : parentOf spans y = some sid)
    (hxy : x ≠ y) (hle : ℓ1 ≤ ℓ2)
    (h1 : PathFrom spans x c ℓ1) (h2 : PathFrom spans y c ℓ2) : False := by
  have hsub : PathFrom spans y x (ℓ2 - ℓ1) := pathFrom_sub ℓ1 ℓ2 x y c hle h1 h2
  cases hk : ℓ2 - ℓ1 with
  | zero =>
    rw [hk] at hsub
    exact hxy hsub
  | succ k =>
    rw [hk] at hsub
    obtain ⟨p, hpx, hrest⟩ := hsub
    have hps : p = sid := Option.some.inj (hpx.symm.trans hx)
    subst hps
    cases k with
    | zero =>
      have hsy : p = y := hrest
      subst hsy
      exact absurd (parentOf_lt hpe hy) (lt_irrefl _)
    | succ k2 =>
      have hlt1 := pathFrom_lt hpe (k2 + 1) p y hrest (by omega)
      have hlt2 := parentOf_lt hpe hy
      omega

/-- Two distinct children of the same span have disjoint subtrees: no
span is reachable below both. -/
theorem children_paths_disjoint {spans : List (String × Option String)}
    (hpe : parentEarlierB spans = true) {sid x y c : String} {ℓ1 ℓ2 : Nat}
    (hx : parentOf spans x = some sid) (hy : parentOf spans y = some sid)
    (hxy : x ≠ y)
    (h1 : PathFrom spans x c ℓ1) (h2 : PathFrom spans y c ℓ2) : False := by
  rcases le_total ℓ1 ℓ2 with h | h
  · exact children_paths_disjoint_aux hpe hx hy hxy h h1 h2
  · exact children_paths_disjoint_aux hpe hy hx (fun he => hxy he.symm) h h2 h1

theorem countP_flatMap (p : γ → Bool) (f : β → List γ) :
    ∀ l : List β, (l.flatMap f).countP p = (l.map (fun a => (f a).countP p)).sum := by
  intro l
  induction l with
  | nil => rfl
  | cons a rest ih => simp [List.flatMap_cons, List.countP_append, ih]

theorem sum_le_one_of_sparse {l : List β} {f : β → Nat}
    (h1 : ∀ x ∈ l, f x ≤ 1)
    (h2 : l.Pairwise (fun x y => f x = 0 ∨ f y = 0)) :
    (l.map f).sum ≤ 1 := by
  induction l with
  | nil => simp
  | cons a rest ih =>
    simp only [List.map_cons, List.sum_cons]
    have hpw := List.pairwise_cons.mp h2
    by_cases ha : f a = 0
    · rw [ha, Nat.zero_add]
      exact ih (fun x hx => h1 x (List.mem_cons_of_mem a hx)) hpw.2
    · have hrest : (rest.map f).sum = 0 := List.sum_eq_zero (by
        intro x hx
        rcases List.mem_map.mp hx with ⟨y, hy, rfl⟩
        rcases hpw.1 y hy with h | h
        · exact absurd h ha
        · exact h)
      rw [hrest]
      have := h1 a (List.mem_cons_self a rest)
      omega

/-- At most one triple with a given child is ever emitted: each span has
one parent, and distinct siblings' subtrees are disjoint. -/
theorem calculate_depth_child_count {spans : List (String × Option String)}
    (hnd : (dictKeys spans).Nodup) (hpe : parentEarlierB spans = true) (c : String) :
    ∀ fuel sid d0,
      (calculate_depth spans fuel sid d0).countP (fun e => e.2.1 = c) ≤ 1 := by
  intro fuel
  induction fuel with
  | zero => intro sid d0; simp [calculate_depth]
  | succ m ih =>
    intro sid d0
    unfold calculate_depth
    by_cases hg : (dictLookup spans sid).isNone
    · rw [if_pos hg]; simp
    · rw [if_neg hg]
      rw [countP_flatMap]
      have hparent_of_mem : ∀ ch ∈ spans.filter (fun p => p.2 = some sid),
          parentOf spans ch.1 = some sid := by
        intro ch hch
        have hm := List.mem_filter.mp hch
        have h2 : ch.2 = some sid := by simpa using hm.2
        unfold parentOf
        rw [dictLookup_of_mem_nodup hnd hm.1, h2]
        rfl
      have hpath_of_pos : ∀ ch ∈ spans.filter (fun p => p.2 = some sid),
          0 < ((sid, ch.1, d0 + 1) :: calculate_depth spans m ch.1 (d0 + 1)).countP
              (fun e => e.2.1 = c) →
          ∃ ℓ, PathFrom spans ch.1 c ℓ := by
        intro ch hch hpos
        rw [List.countP_cons] at hpos
        by_cases hc : ch.1 = c
        · exact ⟨0, hc.symm⟩
        · have hsubpos : 0 < (calculate_depth spans m ch.1 (d0 + 1)).countP
              (fun e => e.2.1 = c) := by
            have hhead : (decide ((sid, ch.1, d0 + 1).2.1 = c)) = false := by
              simpa using hc
            rw [hhead] at hpos
            simpa using hpos
          obtain ⟨e, he, hPe⟩ := List.countP_pos_iff.mp hsubpos
          have hPe2 : e.2.1 = c := by simpa using hPe
          obtain ⟨hpar, ℓ, hℓ, hd, hpath⟩ :=
            calculate_depth_sound hnd m ch.1 (d0 + 1) e.1 e.2.1 e.2.2 he
          rw [hPe2] at hpath
          exact ⟨ℓ, hpath⟩
      apply sum_le_one_of_sparse
      · intro ch hch
        rw [List.countP_cons]
        by_cases hc : ch.1 = c
        · have hsub : (calculate_depth spans m ch.1 (d0 + 1)).countP
              (fun e => e.2.1 = c) = 0 := by
            by_contra h0
            obtain ⟨e, he, hPe⟩ := List.countP_pos_iff.mp (Nat.pos_of_ne_zero h0)
            have hPe2 : e.2.1 = c := by simpa using hPe
            obtain ⟨hpar, ℓ, hℓ, hd, hpath⟩ :=
              calculate_depth_sound hnd m ch.1 (d0 + 1) e.1 e.2.1 e.2.2 he
            rw [hPe2, hc] at hpath
            exact absurd (pathFrom_lt hpe ℓ c c hpath hℓ) (lt_irrefl _)
          rw [hsub]
          simp [hc]
        · have hdc : (decide ((sid, ch.1, d0 + 1).2.1 = c)) = false := by
            simpa using hc
          rw [hdc]
          have := ih ch.1 (d0 + 1)
          simpa using this
      · have hpw : (spans.filter (fun p => p.2 = some sid)).Pairwise
            (fun a b => a.1 ≠ b.1) :=
          (List.pairwise_map.mp hnd).filter _
        refine hpw.imp_of_mem ?_
        intro a b ha hb hab
        by_contra hcon
        push_neg at hcon
        obtain ⟨ha0, hb0⟩ := hcon
        obtain ⟨ℓ1, hp1⟩ := hpath_of_pos a ha (Nat.pos_of_ne_zero ha0)
        obtain ⟨ℓ2, hp2⟩ := hpath_of_pos b hb (Nat.pos_of_ne_zero hb0)
        exact children_paths_disjoint hpe (hparent_of_mem a ha) (hparent_of_mem b hb)
          hab hp1 hp2

/-- C4 (amended): at trace-close time, for a trace with a root span
whose spans respect creation order, the `SpanRelation` rows written are
exactly one per (parent, direct child) edge in the root's subtree, each
row's depth being the child's distance from the root: a row `(p, c, d)`
is written iff `c`'s parent pointer is `p` and `c` lies `d ≥ 1` parent
steps below the root, and every reachable span with a parent has exactly
one row naming it as child. (Rows cover direct edges only, not every
transitive (ancestor, descendant) pair.) -/
theorem save_span_relations_direct_edges (trace_id : String)
    (spans : List (String × Option String)) (root : String)
    (hnd : (dictKeys spans).Nodup) (hpe : parentEarlierB spans = true) :
    (∀ p c d, (⟨trace_id, p, c, d⟩ : RelRow) ∈ save_span_relations trace_id (some root) spans
        ↔ (1 ≤ d ∧ parentOf spans c = some p ∧ PathFrom spans root c d))
    ∧ (∀ c p ℓ, parentOf spans c = some p → 1 ≤ ℓ → PathFrom spans root c ℓ →
        ((save_span_relations trace_id (some root) spans).filter
          (fun row => row.child_span_id = c)).length = 1) := by
  constructor
  · intro p c d
    constructor
    · intro h
      unfold save_span_relations at h
      rcases List.mem_map.mp h with ⟨e, he, heq⟩
      have h1 : e.1 = p ∧ e.2.1 = c ∧ e.2.2 = d := by
        simpa [RelRow.mk.injEq] using heq
      obtain ⟨hp, hc, hd⟩ := h1
      obtain ⟨hpar, ℓ, hℓ, hdd, hpath⟩ :=
        calculate_depth_sound hnd spans.length root 0 e.1 e.2.1 e.2.2 he
      refine ⟨by omega, ?_, ?_⟩
      · rw [← hc, ← hp]
        exact hpar
      · have hℓd : ℓ = d := by omega
        rw [← hc, ← hℓd]
        exact hpath
    · rintro ⟨hd1, hpar, hpath⟩
      have hfuel : d ≤ spans.length := by
        have h1 := pathFrom_le_index hpe d c root hpath
        have h2 : c ∈ dictKeys spans := parentOf_mem_keys hpar
        have h3 := List.indexOf_lt_length.mpr h2
        have h4 : (dictKeys spans).length = spans.length := by simp [dictKeys]
        omega
      have hmem := calculate_depth_complete hpe d spans.length root 0 c p hd1 hfuel hpar hpath
      unfold save_span_relations
      apply List.mem_map.mpr
      exact ⟨(p, c, d), by simpa using hmem, rfl⟩
  · intro c p ℓ hpar hℓ hpath
    unfold save_span_relations
    rw [← List.countP_eq_length_filter, List.countP_map]
    show (calculate_depth spans spans.length root 0).countP (fun e => e.2.1 = c) = 1
    have hle := calculate_depth_child_count hnd hpe c spans.length root 0
    have hfuel : ℓ ≤ spans.length := by
      have h1 := pathFrom_le_index hpe ℓ c root hpath
      have h2 : c ∈ dictKeys spans := parentOf_mem_keys hpar
      have h3 := List.indexOf_lt_length.mpr h2
      have h4 : (dictKeys spans).length = spans.length := by simp [dictKeys]
      omega
    have hmem := calculate_depth_complete hpe ℓ spans.length root 0 c p hℓ hfuel hpar hpath
    have hpos : 0 < (calculate_depth spans spans.length root 0).countP
        (fun e => e.2.1 = c) :=
      List.countP_pos_iff.mpr ⟨(p, c, 0 + ℓ), hmem, by simp⟩
    omega

theorem save_span_relations_direct_edges_witness :
    (dictKeys ceSpans).Nodup ∧ parentEarlierB ceSpans = true
    ∧ ((∀ p c d, (⟨"t", p, c, d⟩ : RelRow) ∈ save_span_relations "t" (some "a") ceSpans
          ↔ (1 ≤ d ∧ parentOf ceSpans c = some p ∧ PathFrom ceSpans "a" c d))
      ∧ (∀ c p ℓ, parentOf ceSpans c = some p → 1 ≤ ℓ → PathFrom ceSpans "a" c ℓ →
          ((save_span_relations "t" (some "a") ceSpans).filter
            (fun row => row.child_span_id = c)).length = 1)) :=
  ⟨by decide, by decide,
   save_span_relations_direct_edges "t" ceSpans "a" (by decide) (by decide)⟩

/-! ## Background task tracker (`background_tasks/tracker.py`)

Python callables are modelled by their observable pieces: the argument
values passed to `wrap`, an optional introspectable signature for
`inspect.signature`, and the invocation outcome (`Except`: normal return
or a raised exception carrying its `str` rendering). -/

/-- A JSON-safe value, the codomain of `_to_serializable`. Floats are
kept opaque (only ever passed through unchanged). -/
inductive JVal where
  | null
  | bool (b : Bool)
  | int (n : Int)
  | float (rep : String)
  | str (s : String)
  | arr (items : List JVal)
  | obj (entries : List (String × JVal))
deriving Repr

/-- A Python argument value, covering the shapes `_to_serializable`
distinguishes: `None`, `bool`, `int`, `float` (opaque), `str`,
`datetime` (carrying its `isoformat` rendering), list/tuple/set (all
iterated into a list), `dict`, and any other object (carrying its
`repr` rendering). -/
inductive PVal where
  | none
  | bool (b : Bool)
  | int (n : Int)
  | float (rep : String)
  | str (s : String)
  | datetime (iso : String)
  | list (items : List PVal)
  | dict (entries : List (PVal × PVal))
  | obj (rep : String)
deriving Repr

/-- Python `str(key)` as applied to dict keys. The exact rendering of
container values is irrelevant to every property below (none inspects
it); scalar renderings follow Python. -/
def pyStr : PVal → String
  | .none => "None"
  | .bool b => if b then "True" else "False"
  | .int n => toString n
  | .float rep => rep
  | .str s => s
  | .datetime iso => iso
  | .list _ => "<list>"
  | .dict _ => "<dict>"
  | .obj rep => rep

/-- `_to_serializable`: primitives pass through, datetimes render to
their ISO string, containers recurse, dict keys go through `str`, and
any other object falls back to its `repr` string. -/
def to_serializable : PVal → JVal
  | .none => .null
  | .bool b => .bool b
  | .int n => .int n
  | .float rep => .float rep
  | .str s => .str s
  | .datetime iso => .str iso
  | .list items => .arr (items.attach.map (fun x => to_serializable x.1))
  | .dict entries =>
      .obj (entries.attach.map (fun x => (pyStr x.1.1, to_serializable x.1.2)))
  | .obj rep => .str rep
decreasing_by
  · simp_wf
    have := List.sizeOf_lt_of_mem x.2
    omega
  · simp_wf
    obtain ⟨⟨a, b⟩, hmem⟩ := x
    simp only
    have := List.sizeOf_lt_of_mem hmem
    simp only [Prod.mk.sizeOf_spec] at this
    omega

theorem to_serializable_list_eq (items : List PVal) :
    to_serializable (.list items) = .arr (items.map to_serializable) := by
  rw [to_serializable]
  congr 1
  exact List.attach_map_val items to_serializable

theorem to_serializable_dict_eq (entries : List (PVal × PVal)) :
    to_serializable (.dict entries)
      = .obj (entries.map (fun kv => (pyStr kv.1, to_serializable kv.2))) := by
  rw [to_serializable]
  congr 1
  exact List.attach_map_val entries (fun kv => (pyStr kv.1, to_serializable kv.2))

/-- One positional-or-keyword parameter of a callable's signature, with
an optional default. (The tracked callables take positional-or-keyword
parameters; `inspect.signature` failing entirely is modelled by an
absent signature.) -/
structure Param where
  name : String
  default : Option PVal
deriving Repr

/-- `signature.bind_partial(*args)` followed by `apply_defaults()`,
returning `bound.arguments` in parameter order: fails when more
positional arguments than parameters are given; otherwise each leading
parameter binds its argument and every remaining parameter with a
default contributes that default. -/
def bind_partial_apply_defaults (params : List Param) (args : List PVal) :
    Option (List (String × PVal)) :=
  if params.length < args.length then none
  else some ((params.zip args).map (fun pa => (pa.1.name, pa.2))
    ++ (params.drop args.length).filterMap (fun p => p.default.map (fun d => (p.name, d))))

/-- `BackgroundTaskTracker._serialize_call_arguments`. -/
def serialize_call_arguments (sig : Option (List Param)) (args : List PVal)
    (kwargs : List (String × PVal)) : List JVal × List (String × JVal) :=
  let serialized_args := args.map to_serializable
  let serialized_kwargs := kwargs.map (fun kv => (kv.1, to_serializable kv.2))
  if kwargs.isEmpty then
    match sig.bind (fun params => bind_partial_apply_defaults params args) with
    | some bound => ([], bound.map (fun kv => (kv.1, to_serializable kv.2)))
    | Option.none => (serialized_args, serialized_kwargs)
  else
    (serialized_args, serialized_kwargs)

/-- A `TrackedTask` record. `args_raw`/`kwargs_raw` model the private
`_args`/`_kwargs` fields retained for rerun. -/
structure TrackedTask where
  id : String
  function_key : String
  function_name : String
  queued_at : Int
  status : String := "queued"
  started_at : Option Int := none
  ended_at : Option Int := none
  args_serialized : List JVal := []
  kwargs_serialized : List (String × JVal) := []
  error_message : Option String := none
  error_trace : Option String := none
  args_raw : List PVal := []
  kwargs_raw : List (String × PVal) := []
deriving Repr

/-- The `queued` task record built by `wrap` before returning the
runner. -/
def wrap_task (id fkey fname : String) (queued_at : Int)
    (sig : Option (List Param)) (args : List PVal)
    (kwargs : List (String × PVal)) : TrackedTask :=
  let ser := serialize_call_arguments sig args kwargs
  { id := id, function_key := fkey, function_name := fname, queued_at := queued_at,
    status := "queued", args_serialized := ser.1, kwargs_serialized := ser.2,
    args_raw := args, kwargs_raw := kwargs }

/-- `t or datetime.max` as a sort-key component: a missing time sorts
after every recorded time, exactly like the `datetime.max` sentinel
(no recorded `datetime.now` value ever equals `datetime.max`); `none`
is encoded as the top element `(1, 0)` above every `(0, t)`. -/
def optTimeKey : Option Int → Nat × Int
  | Option.none => (1, 0)
  | some t => (0, t)

/-- The eviction order: the Python tuple
`(ended_at or max, started_at or max, queued_at)` compared
lexicographically. -/
def taskLe (a b : TrackedTask) : Bool :=
  decide ((optTimeKey a.ended_at).1 < (optTimeKey b.ended_at).1
    ∨ ((optTimeKey a.ended_at).1 = (optTimeKey b.ended_at).1
      ∧ ((optTimeKey a.ended_at).2 < (optTimeKey b.ended_at).2
        ∨ ((optTimeKey a.ended_at).2 = (optTimeKey b.ended_at).2
          ∧ ((optTimeKey a.started_at).1 < (optTimeKey b.started_at).1
            ∨ ((optTimeKey a.started_at).1 = (optTimeKey b.started_at).1
              ∧ ((optTimeKey a.started_at).2 < (optTimeKey b.started_at).2
                ∨ ((optTimeKey a.started_at).2 = (optTimeKey b.started_at).2
                  ∧ a.queued_at ≤ b.queued_at))))))))

/-- `BackgroundTaskTracker._enforce_limit_locked`: when the registry
exceeds the bound, stably sort by the eviction key, take the ids of the
excess smallest entries, and pop them from the registry (which keeps the
remaining entries in their original dict order). -/
def enforce_limit (max_tasks : Nat) (tasks : List TrackedTask) : List TrackedTask :=
  if tasks.length ≤ max_tasks then tasks
  else
    let sorted := tasks.mergeSort taskLe
    let excess := tasks.length - max_tasks
    let removedIds := (sorted.take excess).map (fun t => t.id)
    tasks.filter (fun t => !(removedIds.contains t.id))

/-- The registry effect of `wrap`: register the new `queued` task under
its fresh id (appended, as for any new dict key) and enforce the bound. -/
def wrap_register (max_tasks : Nat) (tasks : List TrackedTask)
    (t : TrackedTask) : List TrackedTask :=
  enforce_limit max_tasks (tasks ++ [t])

/-- `_mark_running`: set status and start time of the given task. -/
def mark_running (tasks : List TrackedTask) (task_id : String) (now : Int) :
    List TrackedTask :=
  tasks.map (fun t => if t.id = task_id
    then { t with status := "running", started_at := some now } else t)

/-- `_mark_finished`. -/
def mark_finished (tasks : List TrackedTask) (task_id : String) : List TrackedTask :=
  tasks.map (fun t => if t.id = task_id then { t with status := "finished" } else t)

/-- `_mark_failed`: record the failure status, `str(exc)` and the
formatted traceback. -/
def mark_failed (tasks : List TrackedTask) (task_id : String)
    (msg trace : String) : List TrackedTask :=
  tasks.map (fun t => if t.id = task_id
    then { t with status := "failed", error_message := some msg,
                  error_trace := some trace } else t)

/-- `_finalize`: record the end time, then enforce the registry bound. -/
def finalize (max_tasks : Nat) (tasks : List TrackedTask) (task_id : String)
    (now : Int) : List TrackedTask :=
  enforce_limit max_tasks
    (tasks.map (fun t => if t.id = task_id then { t with ended_at := some now } else t))

/-- Modelled from Python's `traceback.format_exc()` inside an active
`except` block: a multi-line report starting with the standard header
and ending with the exception's rendering; never empty. -/
def format_exc (msg : String) : String :=
  "Traceback (most recent call last):\n" ++ msg

/-- The registry effect of invoking the runner returned by `wrap`: mark
the task running, invoke the callable (outcome supplied as an `Except`),
mark it finished on normal return or failed (with `str(exc)` and
`format_exc`) when it raises, and finally record the end time and
enforce the bound. -/
def run_runner (max_tasks : Nat) (tasks : List TrackedTask) (task_id : String)
    (result : Except String Unit) (tstart tend : Int) : List TrackedTask :=
  let t1 := mark_running tasks task_id tstart
  let t2 := match result with
    | .ok _ => mark_finished t1 task_id
    | .error msg => mark_failed t1 task_id msg (format_exc msg)
  finalize max_tasks t2 task_id tend

/-- What the runner propagates to its direct caller: the
`try/except Exception/finally` marks the task failed and has no `raise`,
so the runner returns normally for every callable outcome. -/
def runner_outcome (result : Except String Unit) : Except String Unit :=
  match result with
  | .ok _ => .ok ()
  | .error _ => .ok ()

theorem taskLe_trans : ∀ a b c : TrackedTask,
    taskLe a b = true → taskLe b c = true → taskLe a c = true := by
  intro a b c hab hbc
  simp only [taskLe, decide_eq_true_eq] at *
  omega

theorem taskLe_total : ∀ a b : TrackedTask, (taskLe a b || taskLe b a) = true := by
  intro a b
  simp only [taskLe, Bool.or_eq_true, decide_eq_true_eq]
  omega

/-- An unfinished task's key is strictly above every finished task's
key, so it never compares `≤` a finished one. -/
theorem taskLe_none_some {r k : TrackedTask} (hr : r.ended_at = none)
    {v : Int} (hv : k.ended_at = some v) (h : taskLe r k = true) : False := by
  simp only [taskLe, decide_eq_true_eq, hr, hv, optTimeKey] at h
  omega

theorem length_filter_not (l : List α) (p : α → Bool) :
    (l.filter (fun a => !(p a))).length = l.length - l.countP p := by
  induction l with
  | nil => rfl
  | cons a rest ih =>
    have hle := List.countP_le_length p (l := rest)
    by_cases h : p a
    · have h1 : (if p a = true then 1 else 0) = 1 := by simp [h]
      rw [List.filter_cons_of_neg (by simp [h]), List.countP_cons, ih, List.length_cons, h1]
      omega
    · have h1 : (if p a = true then 1 else 0) = 0 := by simp [h]
      rw [List.filter_cons_of_pos (by simp [h]), List.countP_cons, h1]
      simp only [List.length_cons]
      rw [ih]
      omega

theorem countP_take_add_drop (p : α → Bool) (l : List α) (n : Nat) :
    l.countP p = (l.take n).countP p + (l.drop n).countP p := by
  conv_lhs => rw [← List.take_append_drop n l]
  rw [List.countP_append]

theorem enforce_limit_subset {max_tasks : Nat} {tasks : List TrackedTask}
    {u : TrackedTask} (h : u ∈ enforce_limit max_tasks tasks) : u ∈ tasks := by
  unfold enforce_limit at h
  by_cases hle : tasks.length ≤ max_tasks
  · rw [if_pos hle] at h; exact h
  · rw [if_neg hle] at h; exact (List.mem_filter.mp h).1

/-- After enforcement the registry never exceeds the bound. -/
theorem enforce_limit_length (max_tasks : Nat) (tasks : List TrackedTask)
    (hnd : (tasks.map (fun t => t.id)).Nodup) :
    (enforce_limit max_tasks tasks).length ≤ max_tasks := by
  unfold enforce_limit
  by_cases hle : tasks.length ≤ max_tasks
  · rw [if_pos hle]; exact hle
  · rw [if_neg hle]
    have hperm : (tasks.mergeSort taskLe).Perm tasks := List.mergeSort_perm tasks taskLe
    have hnds : ((tasks.mergeSort taskLe).map (fun t => t.id)).Nodup :=
      ((hperm.map _).nodup_iff).mpr hnd
    have hcount : tasks.countP (fun t =>
        (((tasks.mergeSort taskLe).take (tasks.length - max_tasks)).map
          (fun t => t.id)).contains t.id) = tasks.length - max_tasks := by
      rw [← hperm.countP_eq,
        countP_take_add_drop _ (tasks.mergeSort taskLe) (tasks.length - max_tasks)]
      have htake : ((tasks.mergeSort taskLe).take (tasks.length - max_tasks)).countP
          (fun t => (((tasks.mergeSort taskLe).take (tasks.length - max_tasks)).map
            (fun t => t.id)).contains t.id)
          = ((tasks.mergeSort taskLe).take (tasks.length - max_tasks)).length := by
        rw [List.countP_eq_length]
        intro t ht
        have : t.id ∈ ((tasks.mergeSort taskLe).take (tasks.length - max_tasks)).map
            (fun t => t.id) := List.mem_map.mpr ⟨t, ht, rfl⟩
        simpa using this
      have hdrop : ((tasks.mergeSort taskLe).drop (tasks.length - max_tasks)).countP
          (fun t => (((tasks.mergeSort taskLe).take (tasks.length - max_tasks)).map
            (fun t => t.id)).contains t.id) = 0 := by
        rw [List.countP_eq_zero]
        intro t ht hc
        have hmemid : t.id ∈ ((tasks.mergeSort taskLe).take (tasks.length - max_tasks)).map
            (fun t => t.id) := by simpa using hc
        have hsplit : ((tasks.mergeSort taskLe).map (fun t => t.id))
            = ((tasks.mergeSort taskLe).take (tasks.length - max_tasks)).map (fun t => t.id)
              ++ ((tasks.mergeSort taskLe).drop (tasks.length - max_tasks)).map
                  (fun t => t.id) := by
          rw [← List.map_append, List.take_append_drop]
        rw [hsplit, List.nodup_append] at hnds
        exact hnds.2.2 hmemid (List.mem_map.mpr ⟨t, ht, rfl⟩)
      rw [htake, hdrop, List.length_take]
      have hlen : (tasks.mergeSort taskLe).length = tasks.length := hperm.length_eq
      rw [hlen]
      omega
    rw [length_filter_not, hcount]
    omega

/-- Everything evicted compares at or below everything kept, in the
eviction order. -/
theorem enforce_limit_removed_le_kept (max_tasks : Nat) (tasks : List TrackedTask)
    (hnd : (tasks.map (fun t => t.id)).Nodup) :
    ∀ r ∈ tasks, r ∉ enforce_limit max_tasks tasks →
      ∀ k ∈ enforce_limit max_tasks tasks, taskLe r k = true := by
  intro r hr hrout k hk
  unfold enforce_limit at hrout hk
  by_cases hle : tasks.length ≤ max_tasks
  · rw [if_pos hle] at hrout; exact absurd hr hrout
  · rw [if_neg hle] at hrout hk
    have hperm : (tasks.mergeSort taskLe).Perm tasks := List.mergeSort_perm tasks taskLe
    have hrid : r.id ∈ ((tasks.mergeSort taskLe).take (tasks.length - max_tasks)).map
        (fun t => t.id) := by
      by_contra hcon
      apply hrout
      refine List.mem_filter.mpr ⟨hr, ?_⟩
      simp only [Bool.not_eq_true']
      simpa using hcon
    have hkmem := List.mem_filter.mp hk
    have hkid : k.id ∉ ((tasks.mergeSort taskLe).take (tasks.length - max_tasks)).map
        (fun t => t.id) := by
      have := hkmem.2
      simp only [Bool.not_eq_true'] at this
      simpa using this
    rcases List.mem_map.mp hrid with ⟨r2, hr2, hr2id⟩
    have hr2mem : r2 ∈ tasks := hperm.mem_iff.mp (List.mem_of_mem_take hr2)
    have hr2r : r2 = r := List.inj_on_of_nodup_map hnd hr2mem hr hr2id
    subst hr2r
    have hksorted : k ∈ tasks.mergeSort taskLe := hperm.mem_iff.mpr hkmem.1
    have hkdrop : k ∈ (tasks.mergeSort taskLe).drop (tasks.length - max_tasks) := by
      have hsplit := List.take_append_drop (tasks.length - max_tasks) (tasks.mergeSort taskLe)
      rw [← hsplit] at hksorted
      rcases List.mem_append.mp hksorted with h | h
      · exact absurd (List.mem_map.mpr ⟨k, h, rfl⟩) hkid
      · exact h
    have hsorted := List.sorted_mergeSort taskLe_trans taskLe_total tasks
    rw [← List.take_append_drop (tasks.length - max_tasks) (tasks.mergeSort taskLe),
      List.pairwise_append] at hsorted
    exact hsorted.2.2 r2 hr2 k hkdrop

theorem map_update_ids (tasks : List TrackedTask) (task_id : String)
    (f : TrackedTask → TrackedTask) (hf : ∀ t, (f t).id = t.id) :
    ((tasks.map (fun t => if t.id = task_id then f t else t)).map (fun t => t.id))
      = tasks.map (fun t => t.id) := by
  rw [List.map_map]
  apply List.map_congr_left
  intro t _
  show (if t.id = task_id then f t else t).id = t.id
  by_cases h : t.id = task_id
  · rw [if_pos h, hf]
  · rw [if_neg h]

/-- A finished task for the registry-bound example. -/
def finishedTask (id : String) (time : Int) : TrackedTask :=
  { id := id, function_key := "m:f", function_name := "f", queued_at := time,
    status := "finished", started_at := some time, ended_at := some time }

/-- Eight finished tasks, completed in id order. -/
def evictionExample : List TrackedTask :=
  [finishedTask "1" 1, finishedTask "2" 2, finishedTask "3" 3, finishedTask "4" 4,
   finishedTask "5" 5, finishedTask "6" 6, finishedTask "7" 7, finishedTask "8" 8]

/-- C2: after `wrap` and after the runner's finalization the registry
holds at most `max_tasks` entries; every evicted entry compares at or
below every kept entry under the ascending
`(ended_at, started_at, queued_at)` order with absent `ended_at` last;
no unfinished task is evicted while a finished task is kept; and with a
maximum of 3, eight finished tasks (N+5 for N=3) leave exactly the 3
most recently completed. -/
theorem registry_bound_and_eviction (max_tasks : Nat) :
    (∀ tasks t, ((tasks ++ [t]).map (fun u => u.id)).Nodup →
        (wrap_register max_tasks tasks t).length ≤ max_tasks)
    ∧ (∀ tasks task_id now, (tasks.map (fun u => u.id)).Nodup →
        (finalize max_tasks tasks task_id now).length ≤ max_tasks)
    ∧ (∀ tasks, (tasks.map (fun u => u.id)).Nodup →
        ∀ r ∈ tasks, r ∉ enforce_limit max_tasks tasks →
          ∀ k ∈ enforce_limit max_tasks tasks, taskLe r k = true)
    ∧ (∀ tasks, (tasks.map (fun u => u.id)).Nodup →
        ∀ r ∈ tasks, r ∉ enforce_limit max_tasks tasks → r.ended_at = none →
          ∀ k ∈ enforce_limit max_tasks tasks, k.ended_at = none)
    ∧ ((enforce_limit 3 evictionExample).map (fun u => (u.id, u.ended_at))
        = [("6", some 6), ("7", some 7), ("8", some 8)]) := by
  refine ⟨?_, ?_, ?_, ?_, ?_⟩
  · intro tasks t hnd
    exact enforce_limit_length max_tasks (tasks ++ [t]) hnd
  · intro tasks task_id now hnd
    apply enforce_limit_length
    rw [map_update_ids tasks task_id (fun t => { t with ended_at := some now })
      (fun t => rfl)]
    exact hnd
  · intro tasks hnd
    exact enforce_limit_removed_le_kept max_tasks tasks hnd
  · intro tasks hnd r hr hrout hrend k hk
    cases hkend : k.ended_at with
    | none => rfl
    | some v =>
      exact absurd (enforce_limit_removed_le_kept max_tasks tasks hnd r hr hrout k hk)
        (fun h => taskLe_none_some hrend hkend h)
  · simp [enforce_limit, evictionExample, finishedTask, List.mergeSort, taskLe, optTimeKey]

theorem registry_bound_and_eviction_witness :
    (((evictionExample ++ [finishedTask "9" 9]).map (fun u => u.id)).Nodup)
    ∧ (wrap_register 3 evictionExample (finishedTask "9" 9)).length ≤ 3 :=
  ⟨by decide,
   (registry_bound_and_eviction 3).1 evictionExample (finishedTask "9" 9) (by decide)⟩

/-- C9: argument serialization is total on the supported shapes — it is
a total function into JSON-safe values — with primitives passing through
unchanged, datetimes rendered to their ISO string, containers recursed
into (dict keys through `str`), and opaque objects rendered as their
textual `repr`. -/
theorem to_serializable_total_shapes :
    (to_serializable .none = .null)
    ∧ (∀ b, to_serializable (.bool b) = .bool b)
    ∧ (∀ n, to_serializable (.int n) = .int n)
    ∧ (∀ rep, to_serializable (.float rep) = .float rep)
    ∧ (∀ s, to_serializable (.str s) = .str s)
    ∧ (∀ iso, to_serializable (.datetime iso) = .str iso)
    ∧ (∀ items, to_serializable (.list items) = .arr (items.map to_serializable))
    ∧ (∀ entries, to_serializable (.dict entries)
        = .obj (entries.map (fun kv => (pyStr kv.1, to_serializable kv.2))))
    ∧ (∀ rep, to_serializable (.obj rep) = .str rep) :=
  ⟨by rw [to_serializable], fun _ => by rw [to_serializable],
   fun _ => by rw [to_serializable], fun _ => by rw [to_serializable],
   fun _ => by rw [to_serializable], fun _ => by rw [to_serializable],
   to_serializable_list_eq, to_serializable_dict_eq,
   fun _ => by rw [to_serializable]⟩

/-- C10: with no keyword arguments and a signature the positional
arguments bind to, the serialized positional list is empty and every
argument — and every remaining parameter default — appears in the
serialized keyword mapping under its parameter name; when binding fails
(too many positionals, or no introspectable signature) or keyword
arguments were passed, positionals stay in the serialized argument
list. -/
theorem serialize_call_arguments_prefers_keywords
    (params : List Param) (args : List PVal) (kwargs : List (String × PVal))
    (sig : Option (List Param)) :
    (args.length ≤ params.length →
      (serialize_call_arguments (some params) args [] = ([],
          ((params.zip args).map (fun pa => (pa.1.name, pa.2))
            ++ (params.drop args.length).filterMap
                (fun p => p.default.map (fun d => (p.name, d)))).map
            (fun kv => (kv.1, to_serializable kv.2)))
        ∧ (∀ i : Nat, ∀ hi : i < args.length, ∀ hp : i < params.length,
            (params[i].name, to_serializable args[i])
              ∈ (serialize_call_arguments (some params) args []).2)
        ∧ (∀ p ∈ params.drop args.length, ∀ d, p.default = some d →
            (p.name, to_serializable d)
              ∈ (serialize_call_arguments (some params) args []).2)))
    ∧ (params.length < args.length →
        serialize_call_arguments (some params) args []
          = (args.map to_serializable, []))
    ∧ (serialize_call_arguments Option.none args []
        = (args.map to_serializable, []))
    ∧ (kwargs ≠ [] →
        serialize_call_arguments sig args kwargs
          = (args.map to_serializable, kwargs.map (fun kv => (kv.1, to_serializable kv.2)))) := by
  refine ⟨?_, ?_, ?_, ?_⟩
  · intro hle
    have hbind : bind_partial_apply_defaults params args
        = some ((params.zip args).map (fun pa => (pa.1.name, pa.2))
            ++ (params.drop args.length).filterMap
                (fun p => p.default.map (fun d => (p.name, d)))) := by
      unfold bind_partial_apply_defaults
      rw [if_neg (by omega)]
    have heq : serialize_call_arguments (some params) args [] = ([],
        (((params.zip args).map (fun pa => (pa.1.name, pa.2))
          ++ (params.drop args.length).filterMap
              (fun p => p.default.map (fun d => (p.name, d)))).map
          (fun kv => (kv.1, to_serializable kv.2)))) := by
      unfold serialize_call_arguments
      simp only [List.isEmpty_nil, if_true]
      rw [show (some params).bind (fun params => bind_partial_apply_defaults params args)
            = bind_partial_apply_defaults params args from rfl, hbind]
    refine ⟨heq, ?_, ?_⟩
    · intro i hi hp
      rw [heq]
      apply List.mem_map.mpr
      refine ⟨(params[i].name, args[i]), ?_, rfl⟩
      apply List.mem_append.mpr
      left
      apply List.mem_map.mpr
      refine ⟨(params[i], args[i]), ?_, rfl⟩
      have hlen : i < (params.zip args).length := by
        rw [List.length_zip]
        omega
      have hmem := List.getElem_mem hlen
      rwa [List.getElem_zip] at hmem
    · intro p hp d hd
      rw [heq]
      apply List.mem_map.mpr
      refine ⟨(p.name, d), ?_, rfl⟩
      apply List.mem_append.mpr
      right
      apply List.mem_filterMap.mpr
      exact ⟨p, hp, by rw [hd]; rfl⟩
  · intro hgt
    unfold serialize_call_arguments
    have hbind : bind_partial_apply_defaults params args = none := by
      unfold bind_partial_apply_defaults
      rw [if_pos (by omega)]
    simp only [List.isEmpty_nil, if_true]
    rw [show (some params).bind (fun params => bind_partial_apply_defaults params args)
          = bind_partial_apply_defaults params args from rfl, hbind]
    rfl
  · rfl
  · intro hne
    unfold serialize_call_arguments
    have : kwargs.isEmpty = false := by
      cases kwargs with
      | nil => exact absurd rfl hne
      | cons a l => rfl
    rw [this]
    rfl

/-- The signature `f(x, y=5)` and call `f(1)` for the witness. -/
def paramsW : List Param :=
  [{ name := "x", default := Option.none }, { name := "y", default := some (.int 5) }]

theorem serialize_call_arguments_prefers_keywords_witness :
    ([PVal.int 1].length ≤ paramsW.length)
    ∧ ((serialize_call_arguments (some paramsW) [PVal.int 1] [] = ([],
          ((paramsW.zip [PVal.int 1]).map (fun pa => (pa.1.name, pa.2))
            ++ (paramsW.drop [PVal.int 1].length).filterMap
                (fun p => p.default.map (fun d => (p.name, d)))).map
            (fun kv => (kv.1, to_serializable kv.2)))
        ∧ (∀ i : Nat, ∀ hi : i < [PVal.int 1].length, ∀ hp : i < paramsW.length,
            (paramsW[i].name, to_serializable ([PVal.int 1])[i])
              ∈ (serialize_call_arguments (some paramsW) [PVal.int 1] []).2)
        ∧ (∀ p ∈ paramsW.drop [PVal.int 1].length, ∀ d, p.default = some d →
            (p.name, to_serializable d)
              ∈ (serialize_call_arguments (some paramsW) [PVal.int 1] []).2))) :=
  ⟨by decide,
   (serialize_call_arguments_prefers_keywords paramsW [PVal.int 1] [] Option.none).1
     (by decide)⟩

/-- C6 counterexample: for a wrapped callable raising an exception
(rendered `"boom"`), the runner returns normally — it does not re-raise
the error to its caller. -/
theorem runner_reraise_counterexample :
    runner_outcome (.error "boom") = .ok ()
    ∧ (Except.ok () : Except String Unit) ≠ .error "boom" :=
  ⟨rfl, fun h => Except.noConfusion h⟩

/-- C6 (amended): when the wrapped callable raises, the runner catches
the exception — marking the task failed with the exception's message —
and returns normally to its direct caller instead of re-raising. -/
theorem runner_catches_exception (max_tasks : Nat) (tasks : List TrackedTask)
    (task_id msg : String) (tstart tend : Int) :
    runner_outcome (.error msg) = .ok ()
    ∧ ∀ u ∈ run_runner max_tasks tasks task_id (.error msg) tstart tend,
        u.id = task_id → u.status = "failed" ∧ u.error_message = some msg := by
  refine ⟨rfl, ?_⟩
  intro u hu huid
  have hrr : run_runner max_tasks tasks task_id (.error msg) tstart tend
      = finalize max_tasks
          (mark_failed (mark_running tasks task_id tstart) task_id msg (format_exc msg))
          task_id tend := rfl
  rw [hrr] at hu
  unfold finalize at hu
  have hu2 := enforce_limit_subset hu
  rcases List.mem_map.mp hu2 with ⟨v, hv, rfl⟩
  rcases List.mem_map.mp hv with ⟨w, hw, rfl⟩
  rcases List.mem_map.mp hw with ⟨t0, ht0, rfl⟩
  by_cases h0 : t0.id = task_id
  · simp [h0]
  · exfalso
    apply h0
    simpa only [if_neg h0] using huid

/-- C5 (amended): invoking the runner on a callable that raises leaves
exactly one task record for that wrap — with status `"failed"`,
`error_message` equal to the exception's message (hence non-empty
whenever that message is), a never-empty diagnostic `error_trace`, and a
recorded end time — when the registry bound is not exceeded (so the task
is not evicted). -/
theorem runner_failure_record (max_tasks : Nat) (hmax : 1 ≤ max_tasks)
    (id fkey fname : String) (queued_at : Int) (sig : Option (List Param))
    (args : List PVal) (kwargs : List (String × PVal)) (msg : String)
    (tstart tend : Int) :
    ∃ u, run_runner max_tasks
        (wrap_register max_tasks [] (wrap_task id fkey fname queued_at sig args kwargs))
        id (.error msg) tstart tend = [u]
      ∧ u.id = id ∧ u.status = "failed"
      ∧ u.error_message = some msg
      ∧ u.error_trace = some (format_exc msg)
      ∧ format_exc msg ≠ ""
      ∧ u.ended_at = some tend := by
  have h1 : wrap_register max_tasks [] (wrap_task id fkey fname queued_at sig args kwargs)
      = [wrap_task id fkey fname queued_at sig args kwargs] := by
    unfold wrap_register enforce_limit
    rw [if_pos (by simpa using hmax)]
    simp
  refine ⟨{ wrap_task id fkey fname queued_at sig args kwargs with
      status := "failed", started_at := some tstart,
      error_message := some msg, error_trace := some (format_exc msg),
      ended_at := some tend }, ?_, rfl, rfl, rfl, rfl, ?_, rfl⟩
  · rw [h1]
    show finalize max_tasks
        (mark_failed (mark_running [wrap_task id fkey fname queued_at sig args kwargs]
          id tstart) id msg (format_exc msg)) id tend = _
    simp [mark_running, mark_failed, finalize, enforce_limit, wrap_task, hmax]
  · intro hcontra
    have h2 := congrArg String.length hcontra
    simp only [format_exc, String.length_append] at h2
    have h3 : ("Traceback (most recent call last):\n").length = 35 := by decide
    have h4 : ("" : String).length = 0 := by decide
    omega

/-- C5 counterexample: a raised exception whose `str` rendering is empty
(e.g. `raise ValueError()`) yields a failed task record whose
`error_message` is the empty string — not a non-empty one. -/
theorem runner_failure_empty_message_counterexample :
    (run_runner 10 (wrap_register 10 [] (wrap_task "t1" "m:f" "f" 0 Option.none [] []))
        "t1" (.error "") 1 2).map (fun u => (u.status, u.error_message))
      = [("failed", some "")] := by
  decide

theorem runner_failure_record_witness :
    1 ≤ 10
    ∧ ∃ u, run_runner 10
        (wrap_register 10 [] (wrap_task "t1" "m:f" "f" 0 Option.none [] []))
        "t1" (.error "boom") 1 2 = [u]
      ∧ u.id = "t1" ∧ u.status = "failed"
      ∧ u.error_message = some "boom"
      ∧ u.error_trace = some (format_exc "boom")
      ∧ format_exc "boom" ≠ ""
      ∧ u.ended_at = some 2 :=
  ⟨by decide,
   runner_failure_record 10 (by decide) "t1" "m:f" "f" 0 Option.none [] [] "boom" 1 2⟩

/-- The single-task registry used to instantiate the runner theorems. -/
def registryW : List TrackedTask :=
  [wrap_task "t1" "m:f" "f" 0 Option.none [] []]

/-- The record left behind by a runner whose callable raised `"boom"`. -/
def uW : TrackedTask :=
  { id := "t1", function_key := "m:f", function_name := "f", queued_at := 0,
    status := "failed", started_at := some 1, ended_at := some 2,
    error_message := some "boom", error_trace := some (format_exc "boom") }

theorem runner_catches_exception_witness :
    uW ∈ run_runner 10 registryW "t1" (.error "boom") 1 2
    ∧ uW.id = "t1"
    ∧ (uW.status = "failed" ∧ uW.error_message = some "boom") :=
  ⟨by
    rw [show run_runner 10 registryW "t1" (.error "boom") 1 2 = [uW] from rfl]
    exact List.mem_singleton.mpr rfl,
   rfl,
   (runner_catches_exception 10 registryW "t1" "boom" 1 2).2 uW
     (by
       rw [show run_runner 10 registryW "t1" (.error "boom") 1 2 = [uW] from rfl]
       exact List.mem_singleton.mpr rfl)
     rfl⟩

end Radar
